import Mathlib

/-!
# Verification of the workspace-kanban server core

Shallow embedding of `src/server/src/main.rs` (a file-backed kanban board
server).  Strings are modelled as `List Char` (`Str`); the filesystem is a
finite structure of directories and files under a fixed board root.  Rust
functions are translated definition-by-definition; comments on each
definition name the Rust source function it embeds.

Modelling conventions:
* Rust `String`/`&str` becomes `Str := List Char`; `str "…"` injects a
  Lean string literal.
* `char::is_whitespace` (Unicode `White_Space`) is `rustIsWs`, listing the
  exact Unicode code points.
* `str::to_lowercase` is modelled per-character via `rustLowerChar`, which
  is exact on ASCII (the only characters the slug and id logic keeps).
* Timestamps (`now_iso`) are an input parameter: the time source is a
  collaborator of the core.
* `u32` is modelled as `Nat`; `str::parse::<u32>` enforces the `2^32` bound.
-/

namespace Kanban

abbrev Str := List Char

def str (s : String) : Str := s.data

/-- Rust `char::is_whitespace`: the Unicode `White_Space` code points. -/
def rustIsWs (c : Char) : Bool :=
  c = ' ' || c = '\t' || c = '\n' || c = '\x0b' || c = '\x0c' || c = '\r' ||
  c.toNat = 0x85 || c.toNat = 0xa0 || c.toNat = 0x1680 ||
  (0x2000 ≤ c.toNat && c.toNat ≤ 0x200a) ||
  c.toNat = 0x2028 || c.toNat = 0x2029 || c.toNat = 0x202f ||
  c.toNat = 0x205f || c.toNat = 0x3000

/-- Rust `str::trim_start`. -/
def ltrim (s : Str) : Str := s.dropWhile rustIsWs

/-- Rust `str::trim_end`. -/
def rtrim (s : Str) : Str := ((s.reverse).dropWhile rustIsWs).reverse

/-- Rust `str::trim`. -/
def trim (s : Str) : Str := rtrim (ltrim s)

/-- Split a string at every occurrence of character `c`
(Rust `str::split(c)`): always returns at least one piece. -/
def splitOnChar (c : Char) : Str → List Str
  | [] => [[]]
  | x :: xs =>
    if x = c then [] :: splitOnChar c xs
    else
      match splitOnChar c xs with
      | [] => [[x]]
      | p :: ps => (x :: p) :: ps

/-- Strip a single trailing `'\r'` (Rust `str::lines` does this per line). -/
def stripCR (s : Str) : Str :=
  if s.getLast? = some '\r' then s.dropLast else s

/-- Rust `str::lines`: split on `'\n'`, drop the trailing empty piece
produced by a final newline, strip one trailing `'\r'` per line. -/
def lines (s : Str) : List Str :=
  let ps := splitOnChar '\n' s
  (if ps.getLast? = some [] then ps.dropLast else ps).map stripCR

/-- Rust `str::split_once(c)`. -/
def splitOnce (c : Char) : Str → Option (Str × Str)
  | [] => none
  | x :: xs =>
    if x = c then some ([], xs)
    else (splitOnce c xs).map (fun p => (x :: p.1, p.2))

/-- `s` begins with `pat`. -/
def startsWith : Str → Str → Bool
  | _, [] => true
  | [], _ :: _ => false
  | x :: xs, y :: ys => x = y && startsWith xs ys

/-- Rust `str::split_once(pat)` for a string pattern: split at the first
occurrence of `pat`. -/
def splitOnceStr (pat : Str) (s : Str) : Option (Str × Str) :=
  match s with
  | [] => if pat = [] then some ([], []) else none
  | x :: xs =>
    if startsWith s pat then some ([], s.drop pat.length)
    else (splitOnceStr pat xs).map (fun p => (x :: p.1, p.2))

/-- `pat` occurs somewhere in `s` (Rust `str::contains`). -/
def containsSub (pat s : Str) : Bool := (splitOnceStr pat s).isSome

/-- First whitespace-separated token
(Rust `s.split_whitespace().next().unwrap_or("")`). -/
def firstToken (s : Str) : Str := (ltrim s).takeWhile (fun c => ¬ rustIsWs c)

def digitChar : Nat → Char
  | 0 => '0' | 1 => '1' | 2 => '2' | 3 => '3' | 4 => '4'
  | 5 => '5' | 6 => '6' | 7 => '7' | 8 => '8' | _ => '9'

/-- Decimal rendering with explicit fuel (structural recursion so that the
kernel can evaluate it); `natToStr` supplies always-sufficient fuel. -/
def natToStrFuel : Nat → Nat → Str
  | 0, n => [digitChar (n % 10)]
  | fuel + 1, n =>
    if n < 10 then [digitChar n]
    else natToStrFuel fuel (n / 10) ++ [digitChar (n % 10)]

/-- Decimal rendering of a natural number (Rust `format!("{}", n)` on
an unsigned integer). -/
def natToStr (n : Nat) : Str := natToStrFuel n n

def isAsciiDigit (c : Char) : Bool := '0' ≤ c && c ≤ '9'

/-- Numeric value of a decimal digit string (helper for `parseU32`). -/
def decVal (s : Str) : Nat := s.foldl (fun a c => a * 10 + (c.toNat - 48)) 0

/-- Rust `str::parse::<u32>()`: optional leading `'+'`, then one or more
ASCII digits, value below `2^32`. -/
def parseU32 (s : Str) : Option Nat :=
  let digits := if s.headD ' ' = '+' then s.tail else s
  if digits ≠ [] ∧ digits.all isAsciiDigit then
    if decVal digits < 2 ^ 32 then some (decVal digits) else none
  else none

/-- Rust `Vec<String>::join(sep)`. -/
def intercal (sep : Str) : List Str → Str
  | [] => []
  | [x] => x
  | x :: y :: rest => x ++ sep ++ intercal sep (y :: rest)

/-- Rust `Vec<String>::join("\n")`. -/
def joinLines (ls : List Str) : Str := intercal (str "\n") ls

/-- Rust `Vec<String>::join(", ")`. -/
def joinComma (ls : List Str) : Str := intercal (str ", ") ls

/-- Rust `Path::file_stem`: drop the extension after the last `'.'`;
a name whose only `'.'` is a leading one is its own stem. -/
def fileStem (name : Str) : Str :=
  match splitOnce '.' name.reverse with
  | some (_, revStem) => if revStem = [] then name else revStem.reverse
  | none => name

/-- Rust `Path::extension() == Some("md")`: the name ends in `".md"` and
has a nonempty stem part before that dot. -/
def hasMdExt (name : Str) : Bool :=
  decide (4 ≤ name.length) && name.drop (name.length - 3) == str ".md"

/-! ## Data model (structs `Task`, `BoardColumn`, `BoardConfig` in main.rs) -/

structure Task where
  id : Str
  title : Str
  description : Str
  creator : Str
  assigned_to : Str
  created_at : Str
  updated_at : Str
  status : Str
  tags : List Str
  folder : Str
deriving DecidableEq, Repr

structure BoardColumn where
  id : Str
  title : Str
  wip_limit : Option Nat
deriving DecidableEq, Repr

structure BoardConfig where
  columns : List BoardColumn
deriving DecidableEq, Repr

/-! ## Filesystem model

The board root directory: `dirs` are its immediate subdirectories,
`files` the regular files inside those subdirectories, addressed by
`(folder, name)`.  `fs::write` overwrites, `fs::rename` moves content,
`fs::remove_dir_all` drops a directory with everything in it. -/

structure FSFile where
  folder : Str
  name : Str
  content : Str
deriving DecidableEq, Repr

structure FS where
  dirs : List Str
  files : List FSFile
deriving DecidableEq, Repr

def FS.fileContent (fs : FS) (folder name : Str) : Option Str :=
  (fs.files.find? (fun f => f.folder == folder && f.name == name)).map (·.content)

/-- `Path::exists` for a task-file path `root/folder/name`. -/
def FS.fileExists (fs : FS) (folder name : Str) : Bool :=
  (fs.fileContent folder name).isSome

def FS.removeFile (fs : FS) (folder name : Str) : FS :=
  { fs with files := fs.files.filter (fun f => ¬ (f.folder == folder && f.name == name)) }

/-- `fs::write`: create or overwrite. -/
def FS.writeFile (fs : FS) (folder name content : Str) : FS :=
  { fs with files := ⟨folder, name, content⟩ :: (fs.removeFile folder name).files }

/-- `fs::rename` across directories (no-op if the source is absent;
the server checks existence first). -/
def FS.renameFile (fs : FS) (sf sn tf tn : Str) : FS :=
  match fs.fileContent sf sn with
  | some c => (fs.removeFile sf sn).writeFile tf tn c
  | none => fs

/-- `fs::create_dir_all(root.join(d))`. -/
def FS.createDirAll (fs : FS) (d : Str) : FS :=
  if d ∈ fs.dirs then fs else { fs with dirs := fs.dirs ++ [d] }

/-- `fs::remove_dir_all(root.join(d))`. -/
def FS.removeDirAll (fs : FS) (d : Str) : FS :=
  { dirs := fs.dirs.filter (fun x => ¬ x == d),
    files := fs.files.filter (fun f => ¬ f.folder == d) }

/-! ## Slug and id logic (`slugify`, `is_valid_id`, `unique_slug`,
`exists_anywhere`, `find_task_path`) -/

/-- Characters admitted by `is_valid_id`: lowercase ASCII letters,
ASCII digits and `'-'`. -/
def isIdChar (c : Char) : Bool :=
  ('a' ≤ c && c ≤ 'z') || ('0' ≤ c && c ≤ '9') || c == '-'

/-- `is_valid_id` (main.rs:549). -/
def is_valid_id (s : Str) : Bool := ¬ s.isEmpty && s.all isIdChar

/-- Characters admitted for column ids (`parse_config_line`,
`validate_columns`): lowercase ASCII letters, digits, `'_'`, `'-'`. -/
def isColIdChar (c : Char) : Bool :=
  ('a' ≤ c && c ≤ 'z') || ('0' ≤ c && c ≤ '9') || c == '_' || c == '-'

def isAsciiAlnum (c : Char) : Bool :=
  ('a' ≤ c && c ≤ 'z') || ('A' ≤ c && c ≤ 'Z') || ('0' ≤ c && c ≤ '9')

/-- Per-character model of Rust `str::to_lowercase` (exact on ASCII;
non-ASCII letters have no ASCII-alphanumeric image either way, which is
all `slugify` inspects). -/
def rustLowerChar (c : Char) : Char :=
  if 'A' ≤ c ∧ c ≤ 'Z' then Char.ofNat (c.toNat + 32) else c

/-- Body of the `slugify` character loop (main.rs:527-540): the `out`
string built with the `last_dash` flag. -/
def slugifyCore : Str → Bool → Str
  | [], _ => []
  | c :: cs, lastDash =>
    if isAsciiAlnum c then c :: slugifyCore cs false
    else if rustIsWs c || c = '-' || c = '_' then
      if lastDash then slugifyCore cs true
      else '-' :: slugifyCore cs true
    else slugifyCore cs lastDash

/-- Rust `str::trim_matches('-')`. -/
def trimDashes (s : Str) : Str :=
  ((s.dropWhile (fun c => c == '-')).reverse.dropWhile (fun c => c == '-')).reverse

/-- `slugify` (main.rs:527-547). -/
def slugify (input : Str) : Str :=
  let out := slugifyCore (input.map rustLowerChar) false
  let trimmed := trimDashes out
  if trimmed = [] then str "task" else trimmed

/-- `exists_anywhere` (main.rs:567-572): a task file `id.md` exists under
some configured column folder. -/
def exists_anywhere (fs : FS) (id : Str) (config : BoardConfig) : Bool :=
  config.columns.any (fun column => fs.fileExists column.id (id ++ str ".md"))

def candidateName (base : Str) (n : Nat) : Str := base ++ '-' :: natToStr n

/-- The `loop` of `unique_slug` (main.rs:557-564), with explicit fuel;
`unique_slug_fuel_sufficient` below shows the chosen fuel never runs out. -/
def uniqueSlugLoop (fs : FS) (base : Str) (config : BoardConfig) : Nat → Nat → Str
  | 0, n => candidateName base n
  | fuel + 1, n =>
    if exists_anywhere fs (candidateName base n) config then
      uniqueSlugLoop fs base config fuel (n + 1)
    else candidateName base n

/-- `unique_slug` (main.rs:553-565). -/
def unique_slug (fs : FS) (base : Str) (config : BoardConfig) : Str :=
  if exists_anywhere fs base config then
    uniqueSlugLoop fs base config (fs.files.length + 1) 2
  else base

/-- `find_task_path` (main.rs:578-586): first configured folder holding
`id + ".md"`; the path is `root/folder/id.md`, so the folder determines it. -/
def find_task_path (fs : FS) (id : Str) (config : BoardConfig) : Option Str :=
  (config.columns.find? (fun column => fs.fileExists column.id (id ++ str ".md"))).map (·.id)

/-! ## Task codec (`parse_task`, `write_task`) -/

/-- Header accumulation of `parse_task`'s line loop: header `key: value`
pairs (trimmed) until the first blank line, then the remaining lines are
the body.  Later duplicate keys overwrite earlier ones via `hdrGet`. -/
def parseLines : List Str → List (Str × Str) → List (Str × Str) × List Str
  | [], hdr => (hdr, [])
  | l :: ls, hdr =>
    if trim l = [] then (hdr, ls)
    else
      match splitOnce ':' l with
      | some (k, v) => parseLines ls (hdr ++ [(trim k, trim v)])
      | none => parseLines ls hdr

/-- `HashMap::get` over the insertion sequence: the last insert wins. -/
def hdrGet (hdr : List (Str × Str)) (k : Str) : Option Str :=
  match hdr with
  | [] => none
  | (k', v) :: rest =>
    match hdrGet rest k with
    | some w => some w
    | none => if k' = k then some v else none

/-- The tags header value split into the tag list (main.rs:608-616). -/
def splitTags (v : Str) : List Str :=
  ((splitOnChar ',' v).map trim).filter (fun t => t ≠ [])

/-- `parse_task` (main.rs:588-629) on file contents; `stem` is the file's
base name without extension (the id source), `folder` the physical folder. -/
def parse_task (content : Str) (stem folder : Str) : Task :=
  let pl := parseLines (lines content) []
  let hdr := pl.1
  let tags := match hdrGet hdr (str "tags") with
    | some v => splitTags v
    | none => []
  { id := stem
    title := (hdrGet hdr (str "title")).getD []
    description := joinLines pl.2
    creator := (hdrGet hdr (str "creator")).getD []
    assigned_to := (hdrGet hdr (str "assigned_to")).getD []
    created_at := (hdrGet hdr (str "created_at")).getD []
    updated_at := (hdrGet hdr (str "updated_at")).getD []
    status := (hdrGet hdr (str "status")).getD folder
    tags := tags
    folder := folder }

/-- `write_task` (main.rs:631-649): the serialized file contents. -/
def write_task (task : Task) : Str :=
  let tags := if task.tags = [] then [] else joinComma task.tags
  str "creator: " ++ task.creator ++
  str "\nassigned_to: " ++ task.assigned_to ++
  str "\ncreated_at: " ++ task.created_at ++
  str "\nupdated_at: " ++ task.updated_at ++
  str "\nstatus: " ++ task.status ++
  str "\ntags: " ++ tags ++
  str "\ntitle: " ++ task.title ++
  str "\n\n" ++ task.description ++ str "\n"

/-! ## Config store (`parse_config_line`, `write_config`) -/

/-- `parse_config_line` (main.rs:106-146). -/
def parse_config_line (line : Str) : Option BoardColumn :=
  let trimmed := trim line
  if trimmed = [] then none
  else if trimmed.headD ' ' = '#' then none
  else
    let parts := match splitOnce ':' trimmed with
      | some (l, r) => (trim l, trim r)
      | none => (trimmed, trimmed)
    let id_part := parts.1
    let title_part := parts.2
    if id_part = [] then none
    else if ¬ id_part.all isColIdChar then none
    else
      let tw := match splitOnceStr (str "wip=") title_part with
        | some (base_title, tail) =>
          let raw := firstToken (trim tail)
          let wl := match parseU32 raw with
            | some v => if 0 < v then some v else none
            | none => none
          (trim base_title, wl)
        | none => (title_part, none)
      let title := if tw.1 = [] then id_part else tw.1
      some { id := id_part, title := title, wip_limit := tw.2 }

/-- The parsing loop of `load_config` (main.rs:271-276) on file contents. -/
def parse_config (contents : Str) : List BoardColumn :=
  (lines contents).filterMap parse_config_line

/-- One line of `write_config` (main.rs:232-240). -/
def configLine (column : BoardColumn) : Str :=
  match column.wip_limit with
  | some limit =>
    if 0 < limit then
      column.id ++ str ": " ++ column.title ++ str " wip=" ++ natToStr limit ++ str "\n"
    else column.id ++ str ": " ++ column.title ++ str "\n"
  | none => column.id ++ str ": " ++ column.title ++ str "\n"

/-- `write_config` (main.rs:230-242): the serialized config contents. -/
def serialize_config (config : BoardConfig) : Str :=
  config.columns.foldl (fun acc column => acc ++ configLine column) []

/-! ## Listing (`load_all_tasks`) -/

/-- `HashMap::insert` on an association list: overwrite any old binding. -/
def insertAL (m : List (Str × List Task)) (k : Str) (v : List Task) :
    List (Str × List Task) :=
  (k, v) :: m.filter (fun p => ¬ p.1 == k)

def lookupAL (m : List (Str × List Task)) (k : Str) : Option (List Task) :=
  (m.find? (fun p => p.1 == k)).map (·.2)

/-- The per-column directory scan of `load_all_tasks` (main.rs:654-665):
tasks of every `.md` file in the column's directory (parse errors cannot
occur in the model, matching the total in-memory parser). -/
def scanColumn (fs : FS) (columnId : Str) : List Task :=
  if columnId ∈ fs.dirs then
    (fs.files.filter (fun f => f.folder == columnId && hasMdExt f.name)).map
      (fun f => parse_task f.content (fileStem f.name) columnId)
  else []

/-- `load_all_tasks` (main.rs:651-670): a map from column id to its tasks. -/
def load_all_tasks (fs : FS) (config : BoardConfig) : List (Str × List Task) :=
  config.columns.foldl (fun out column => insertAL out column.id (scanColumn fs column.id)) []

/-! ## Reconciler (`ensure_folders`, `reconcile_folders` in auto mode)

The interactive resolution path (`prompt_handle_removed_folder`) is
console I/O and is exercised only when the server runs without `-y`;
the model covers the `yes = true` (auto-confirm) mode the claims are
about. -/

/-- `ensure_folders` (main.rs:83-88). -/
def ensure_folders (fs : FS) (config : BoardConfig) : FS :=
  config.columns.foldl (fun fs column => fs.createDirAll column.id) fs

/-- Is there a `.md` task file inside directory `d`?
(main.rs:381-383). -/
def dirHasTasks (fs : FS) (d : Str) : Bool :=
  fs.files.any (fun f => f.folder == d && hasMdExt f.name)

/-- A scanned directory the auto mode treats as an orphan:
not `.git` and not a configured column id. -/
def isOrphan (config : BoardConfig) (d : Str) : Bool :=
  ¬ d == str ".git" && ¬ config.columns.any (fun column => column.id == d)

/-- The `read_dir` loop of `reconcile_folders` with `yes = true`
(main.rs:369-399), iterating over the directory snapshot `ds`:
returns the filesystem when the loop stops, plus the error message if it
stopped with `Err`. -/
def reconcileAutoGo (config : BoardConfig) : FS → List Str → FS × Option Str
  | fs, [] => (fs, none)
  | fs, d :: rest =>
    if isOrphan config d then
      if dirHasTasks fs d then
        (fs, some (str "Folder '" ++ d ++
          str "' has tasks but is not in .workspace-kanban; run without -y to resolve"))
      else reconcileAutoGo config (fs.removeDirAll d) rest
    else reconcileAutoGo config fs rest

/-- `reconcile_folders` with `yes = true` (main.rs:360-401). -/
def reconcile_folders_auto (fs : FS) (config : BoardConfig) : FS × Option Str :=
  let fs1 := ensure_folders fs config
  reconcileAutoGo config fs1 fs1.dirs

/-! ## Request results and the task operations of the dispatcher -/

inductive ApiResult where
  | ok (code : Nat) (task : Task)
  | okEmpty (code : Nat)
  | err (code : Nat) (msg : Str)
deriving DecidableEq, Repr

/-- Deserialized `UpdateTask` request body (main.rs:60-67). -/
structure UpdateReq where
  title : Option Str
  description : Option Str
  creator : Option Str
  assigned_to : Option Str
  tags : Option (List Str)
deriving DecidableEq, Repr

/-- The `POST /api/tasks/{id}/move` handler body (main.rs:896-927), after
config refresh and body parsing; `now` is the `now_iso()` reading.
`fs::rename` and `write_task` I/O failures are not modelled (the claims
under verification concern the checked error paths and the success path). -/
def move_task (fs : FS) (idPart : Str) (targetFolder : Str) (config : BoardConfig)
    (now : Str) : ApiResult × FS :=
  if ¬ config.columns.any (fun c => c.id == targetFolder) then
    (.err 400 (str "invalid folder"), fs)
  else
    match find_task_path fs idPart config with
    | none => (.err 404 (str "task not found"), fs)
    | some currentFolder =>
      match fs.fileContent currentFolder (idPart ++ str ".md") with
      | none => (.err 500 (str "io error"), fs)
      | some content =>
        let task := parse_task content (fileStem (idPart ++ str ".md")) currentFolder
        if fs.fileExists targetFolder (idPart ++ str ".md") then
          (.err 409 (str "target file exists"), fs)
        else
          let task2 := { task with
            folder := targetFolder, status := targetFolder, updated_at := now }
          let fs1 := fs.renameFile currentFolder (idPart ++ str ".md")
            targetFolder (idPart ++ str ".md")
          let fs2 := fs1.writeFile targetFolder (idPart ++ str ".md") (write_task task2)
          (.ok 200 task2, fs2)

/-- Field edits + persist of the `PUT /api/tasks/{id}` handler
(main.rs:966-983), applied after any rename: overwrite each supplied
field, refresh `updated_at`, write to `task_path(root, folder, task.id)`. -/
def applyUpdateEdits (fs : FS) (folder : Str) (upd : UpdateReq) (now : Str)
    (task : Task) : ApiResult × FS :=
  let task2 := { task with
    description := upd.description.getD task.description
    creator := upd.creator.getD task.creator
    assigned_to := upd.assigned_to.getD task.assigned_to
    tags := upd.tags.getD task.tags
    updated_at := now }
  (.ok 200 task2, fs.writeFile folder (task2.id ++ str ".md") (write_task task2))

/-- The `PUT /api/tasks/{id}` handler body (main.rs:934-999) after config
refresh and body parsing.  `renameOk` is the outcome of the `fs::rename`
call when a title change forces one (a failed rename leaves the
filesystem unchanged and aborts with 500 before any edit is persisted). -/
def update_task (fs : FS) (idPart : Str) (upd : UpdateReq) (config : BoardConfig)
    (now : Str) (renameOk : Bool) : ApiResult × FS :=
  match find_task_path fs idPart config with
  | none => (.err 404 (str "task not found"), fs)
  | some folder =>
    match fs.fileContent folder (idPart ++ str ".md") with
    | none => (.err 500 (str "io error"), fs)
    | some content =>
      let task := parse_task content (fileStem (idPart ++ str ".md")) folder
      match upd.title with
      | some title =>
        let newSlug := slugify title
        if newSlug ≠ task.id then
          if renameOk then
            let finalSlug := unique_slug fs newSlug config
            let fs1 := fs.renameFile folder (idPart ++ str ".md")
              folder (finalSlug ++ str ".md")
            applyUpdateEdits fs1 folder upd now { task with id := finalSlug, title := title }
          else (.err 500 (str "rename failed"), fs)
        else applyUpdateEdits fs folder upd now { task with title := title }
      | none => applyUpdateEdits fs folder upd now task

/-- The `DELETE /api/tasks/{id}` handler body (main.rs:1000-1018). -/
def delete_task (fs : FS) (idPart : Str) (config : BoardConfig) : ApiResult × FS :=
  match find_task_path fs idPart config with
  | none => (.err 404 (str "task not found"), fs)
  | some folder => (.okEmpty 204, fs.removeFile folder (idPart ++ str ".md"))

inductive Method where
  | get | post | put | delete
deriving DecidableEq, Repr

/-- The `/api/tasks/{id}` and `/api/tasks/{id}/move` dispatch branch
(main.rs:886-1021).  `suffix` is the URL after `"/api/tasks/"`.
`refresh` abstracts `refresh_config` (config load + reconcile), which
both reads and may mutate the filesystem; the request bodies arrive
already deserialized (`none` = malformed JSON ⇒ 400 in the sub-branch). -/
def handle_task_route (fs : FS) (suffix : Str) (method : Method)
    (refresh : FS → Except Str BoardConfig × FS)
    (moveBody : Option Str) (updateBody : Option UpdateReq) (now : Str)
    (renameOk : Bool) : ApiResult × FS :=
  let parts := splitOnChar '/' suffix
  let idPart := parts.headD []
  if ¬ is_valid_id idPart then (.err 400 (str "invalid id"), fs)
  else if parts.length = 2 && parts.getD 1 [] == str "move" && method == Method.post then
    match refresh fs with
    | (.error msg, fs1) => (.err 500 msg, fs1)
    | (.ok config, fs1) =>
      match moveBody with
      | none => (.err 400 (str "bad body"), fs1)
      | some folder => move_task fs1 idPart folder config now
  else if parts.length = 1 && method == Method.put then
    match refresh fs with
    | (.error msg, fs1) => (.err 500 msg, fs1)
    | (.ok config, fs1) =>
      match updateBody with
      | none => (.err 400 (str "bad body"), fs1)
      | some upd => update_task fs1 idPart upd config now renameOk
  else if parts.length = 1 && method == Method.delete then
    match refresh fs with
    | (.error msg, fs1) => (.err 500 msg, fs1)
    | (.ok config, fs1) => delete_task fs1 idPart config
  else (.err 404 (str "not found"), fs)

/-! ## Lemmas: splitting and joining lines -/

theorem splitOnChar_ne_nil (c : Char) (s : Str) : splitOnChar c s ≠ [] := by
  cases s with
  | nil => simp [splitOnChar]
  | cons x xs =>
    simp only [splitOnChar]
    split
    · simp
    · cases h : splitOnChar c xs <;> simp

theorem mem_of_mem_splitOnChar {c : Char} {s p : Str} (hp : p ∈ splitOnChar c s) :
    ∀ x ∈ p, x ∈ s := by
  induction s generalizing p with
  | nil =>
    simp only [splitOnChar, List.mem_singleton] at hp
    subst hp; simp
  | cons y ys ih =>
    simp only [splitOnChar] at hp
    by_cases hy : y = c
    · rw [if_pos hy] at hp
      rcases List.mem_cons.mp hp with rfl | hp
      · simp
      · exact fun x hx => List.mem_cons_of_mem _ (ih hp x hx)
    · rw [if_neg hy] at hp
      cases hsp : splitOnChar c ys with
      | nil => exact absurd hsp (splitOnChar_ne_nil c ys)
      | cons q qs =>
        rw [hsp] at hp
        rcases List.mem_cons.mp hp with rfl | hp
        · intro x hx
          rcases List.mem_cons.mp hx with rfl | hx
          · simp
          · exact List.mem_cons_of_mem _
              (ih (p := q) (by rw [hsp]; exact List.mem_cons_self q qs) x hx)
        · exact fun x hx => List.mem_cons_of_mem _
            (ih (p := p) (by rw [hsp]; exact List.mem_cons_of_mem _ hp) x hx)

theorem not_mem_of_mem_splitOnChar {c : Char} {s p : Str} (hp : p ∈ splitOnChar c s) :
    c ∉ p := by
  induction s generalizing p with
  | nil =>
    simp only [splitOnChar, List.mem_singleton] at hp
    subst hp; simp
  | cons y ys ih =>
    simp only [splitOnChar] at hp
    by_cases hy : y = c
    · rw [if_pos hy] at hp
      rcases List.mem_cons.mp hp with rfl | hp
      · simp
      · exact ih hp
    · rw [if_neg hy] at hp
      cases hsp : splitOnChar c ys with
      | nil => exact absurd hsp (splitOnChar_ne_nil c ys)
      | cons q qs =>
        rw [hsp] at hp
        rcases List.mem_cons.mp hp with rfl | hp
        · intro hmem
          rcases List.mem_cons.mp hmem with h | hmem
          · exact hy h.symm
          · exact ih (p := q) (by rw [hsp]; exact List.mem_cons_self q qs) hmem
        · exact ih (p := p) (by rw [hsp]; exact List.mem_cons_of_mem _ hp)

theorem splitOnChar_append_sep {c : Char} {l : Str} (h : c ∉ l) (rest : Str) :
    splitOnChar c (l ++ c :: rest) = l :: splitOnChar c rest := by
  induction l with
  | nil => simp [splitOnChar]
  | cons x xs ih =>
    have hx : ¬ x = c := fun hxc => h (hxc ▸ List.mem_cons_self x xs)
    have h' : c ∉ xs := fun hm => h (List.mem_cons_of_mem _ hm)
    simp only [List.cons_append, splitOnChar, if_neg hx, List.append_eq, ih h']

theorem splitOnChar_append_last (c : Char) (w : Str) :
    splitOnChar c (w ++ [c]) = splitOnChar c w ++ [[]] := by
  induction w with
  | nil => simp [splitOnChar]
  | cons x xs ih =>
    by_cases hx : x = c
    · simp only [List.cons_append, splitOnChar, if_pos hx, List.append_eq, ih]
    · simp only [List.cons_append, splitOnChar, if_neg hx, List.append_eq, ih]
      cases hsp : splitOnChar c xs with
      | nil => exact absurd hsp (splitOnChar_ne_nil c xs)
      | cons q qs => simp [hsp]

theorem intercal_splitOnChar (c : Char) (w : Str) :
    intercal [c] (splitOnChar c w) = w := by
  induction w with
  | nil => simp [splitOnChar, intercal]
  | cons x xs ih =>
    by_cases hx : x = c
    · subst hx
      simp only [splitOnChar, if_pos rfl]
      cases hsp : splitOnChar x xs with
      | nil => exact absurd hsp (splitOnChar_ne_nil x xs)
      | cons q qs =>
        rw [hsp] at ih
        simp [intercal, ih]
    · simp only [splitOnChar, if_neg hx]
      cases hsp : splitOnChar c xs with
      | nil => exact absurd hsp (splitOnChar_ne_nil c xs)
      | cons q qs =>
        rw [hsp] at ih
        cases qs with
        | nil => simpa [intercal] using congrArg (x :: ·) ih
        | cons q2 qs2 =>
          simp only [intercal, List.cons_append] at ih ⊢
          rw [← ih]

theorem stripCR_eq_self {s : Str} (h : s.getLast? ≠ some '\r') : stripCR s = s := by
  simp [stripCR, h]

theorem mem_stripCR {s : Str} : ∀ x ∈ stripCR s, x ∈ s := by
  unfold stripCR
  split
  · exact fun x hx => List.dropLast_subset _ hx
  · exact fun x hx => hx

theorem lines_nil : lines [] = [] := rfl

theorem lines_append {l : Str} (h : '\n' ∉ l) (rest : Str) :
    lines (l ++ '\n' :: rest) = stripCR l :: lines rest := by
  unfold lines
  dsimp only
  rw [splitOnChar_append_sep h]
  cases hsp : splitOnChar '\n' rest with
  | nil => exact absurd hsp (splitOnChar_ne_nil _ _)
  | cons q qs =>
    by_cases hlast : (q :: qs).getLast? = some []
    · rw [List.getLast?_cons_cons, if_pos hlast, if_pos hlast]
      simp [List.dropLast]
    · rw [List.getLast?_cons_cons, if_neg hlast, if_neg hlast]
      simp

theorem lines_terminated (w : Str) :
    lines (w ++ ['\n']) = (splitOnChar '\n' w).map stripCR := by
  unfold lines
  dsimp only
  rw [splitOnChar_append_last]
  have hl : (splitOnChar '\n' w ++ [[]]).getLast? = some ([] : Str) := by simp
  rw [if_pos hl, List.dropLast_concat]

theorem joinLines_lines_of_no_cr {w : Str} (h : '\r' ∉ w) :
    joinLines (lines (w ++ ['\n'])) = w := by
  rw [lines_terminated]
  have hmap : (splitOnChar '\n' w).map stripCR = splitOnChar '\n' w := by
    have hcong : ∀ p ∈ splitOnChar '\n' w, stripCR p = p := by
      intro p hp
      refine stripCR_eq_self fun hl => ?_
      obtain ⟨hne, hx⟩ := List.mem_getLast?_eq_getLast (show '\r' ∈ p.getLast? from hl)
      have hrp : '\r' ∈ p := hx ▸ List.getLast_mem hne
      exact h (mem_of_mem_splitOnChar hp _ hrp)
    calc (splitOnChar '\n' w).map stripCR = (splitOnChar '\n' w).map id :=
          List.map_congr_left hcong
      _ = splitOnChar '\n' w := List.map_id _
  rw [hmap]
  exact intercal_splitOnChar '\n' w

/-! ## Lemmas: trimming -/

theorem ltrim_cons_of_not_ws {c : Char} (h : rustIsWs c = false) (s : Str) :
    ltrim (c :: s) = c :: s := by
  simp [ltrim, List.dropWhile_cons, h]

theorem ltrim_cons_of_ws {c : Char} (h : rustIsWs c = true) (s : Str) :
    ltrim (c :: s) = ltrim s := by
  simp [ltrim, List.dropWhile_cons, h]

theorem ltrim_eq_self_iff {s : Str} :
    ltrim s = s ↔ ∀ x ∈ s.head?, rustIsWs x = false := by
  cases s with
  | nil => simp [ltrim]
  | cons c cs =>
    constructor
    · intro h x hx
      simp only [List.head?_cons, Option.mem_def, Option.some.injEq] at hx
      subst hx
      by_contra hws
      rw [ltrim, List.dropWhile_cons, if_pos (by simpa using hws)] at h
      have hle := (List.dropWhile_sublist (l := cs) rustIsWs).length_le
      have hlen := congrArg List.length h
      simp only [List.length_cons] at hlen
      omega
    · intro h
      exact ltrim_cons_of_not_ws (h c (by simp)) cs

theorem ltrim_head_not_ws {s : Str} : ∀ x ∈ (ltrim s).head?, rustIsWs x = false := by
  induction s with
  | nil => simp [ltrim]
  | cons c cs ih =>
    by_cases h : rustIsWs c
    · rw [ltrim_cons_of_ws h]; exact ih
    · rw [ltrim_cons_of_not_ws (by simpa using h)]
      intro x hx
      simp only [List.head?_cons, Option.mem_def, Option.some.injEq] at hx
      subst hx
      simpa using h

theorem ltrim_idem (s : Str) : ltrim (ltrim s) = ltrim s :=
  ltrim_eq_self_iff.mpr ltrim_head_not_ws

theorem mem_ltrim {s : Str} : ∀ x ∈ ltrim s, x ∈ s := by
  induction s with
  | nil => simp [ltrim]
  | cons c cs ih =>
    by_cases h : rustIsWs c
    · rw [ltrim_cons_of_ws h]
      exact fun x hx => List.mem_cons_of_mem _ (ih x hx)
    · rw [ltrim_cons_of_not_ws (by simpa using h)]
      exact fun x hx => hx

theorem ltrim_eq_nil_iff {s : Str} : ltrim s = [] ↔ ∀ x ∈ s, rustIsWs x = true := by
  induction s with
  | nil => simp [ltrim]
  | cons c cs ih =>
    by_cases h : rustIsWs c
    · rw [ltrim_cons_of_ws h]
      simp [ih, h]
    · rw [ltrim_cons_of_not_ws (by simpa using h)]
      simp only [List.mem_cons]
      constructor
      · intro hc; exact absurd hc (List.cons_ne_nil c cs)
      · intro hall; exact absurd (hall c (Or.inl rfl)) (by simpa using h)

theorem ltrim_getLast? {s : Str} :
    ltrim s = [] ∨ (ltrim s).getLast? = s.getLast? := by
  induction s with
  | nil => exact Or.inl rfl
  | cons c cs ih =>
    by_cases h : rustIsWs c
    · rw [ltrim_cons_of_ws h]
      rcases ih with h1 | h2
      · exact Or.inl h1
      · rcases hcs : cs with _ | ⟨d, ds⟩
        · exact Or.inl (by simp [hcs, ltrim])
        · right
          rw [← hcs, h2, hcs, List.getLast?_cons_cons]
    · right
      rw [ltrim_cons_of_not_ws (by simpa using h)]

theorem rtrim_def (s : Str) : rtrim s = (ltrim s.reverse).reverse := rfl

theorem rtrim_eq_self_iff {s : Str} :
    rtrim s = s ↔ ∀ x ∈ s.getLast?, rustIsWs x = false := by
  rw [rtrim_def]
  constructor
  · intro h x hx
    have hrev : ltrim s.reverse = s.reverse := by
      have := congrArg List.reverse h
      simpa using this
    exact ltrim_eq_self_iff.mp hrev x (by rwa [List.head?_reverse])
  · intro h
    have hrev : ltrim s.reverse = s.reverse :=
      ltrim_eq_self_iff.mpr (fun x hx => h x (by rwa [List.head?_reverse] at hx))
    rw [hrev, List.reverse_reverse]

theorem mem_rtrim {s : Str} : ∀ x ∈ rtrim s, x ∈ s := by
  intro x hx
  rw [rtrim_def, List.mem_reverse] at hx
  have hms := mem_ltrim _ hx
  rwa [List.mem_reverse] at hms

theorem rtrim_idem (s : Str) : rtrim (rtrim s) = rtrim s := by
  rw [rtrim_def s, rtrim_def]
  rw [List.reverse_reverse, ltrim_idem]

theorem rtrim_getLast_not_ws {s : Str} : ∀ x ∈ (rtrim s).getLast?, rustIsWs x = false := by
  intro x hx
  rw [rtrim_def, List.getLast?_reverse] at hx
  exact ltrim_head_not_ws x hx

theorem mem_trim {s : Str} : ∀ x ∈ trim s, x ∈ s :=
  fun _ hx => mem_ltrim _ (mem_rtrim _ hx)

theorem trim_eq_self_of {s : Str} (h1 : ∀ x ∈ s.head?, rustIsWs x = false)
    (h2 : ∀ x ∈ s.getLast?, rustIsWs x = false) : trim s = s := by
  unfold trim
  rw [ltrim_eq_self_iff.mpr h1, rtrim_eq_self_iff.mpr h2]

theorem trim_eq_self_decomp {s : Str} (h : trim s = s) : ltrim s = s ∧ rtrim s = s := by
  have hlen1 := (List.dropWhile_sublist (l := s) rustIsWs).length_le
  have hlen2 : (rtrim (ltrim s)).length ≤ (ltrim s).length := by
    rw [rtrim_def]
    simpa using (List.dropWhile_sublist (l := (ltrim s).reverse) rustIsWs).length_le
  have hlen := congrArg List.length h
  have hl : (ltrim s).length = s.length := by
    unfold trim at hlen
    unfold ltrim at hlen2 hlen ⊢
    omega
  have hlt : ltrim s = s := (List.dropWhile_sublist rustIsWs).eq_of_length hl
  refine ⟨hlt, ?_⟩
  unfold trim at h
  rwa [hlt] at h

theorem head?_rtrim {s : Str} : rtrim s = [] ∨ (rtrim s).head? = s.head? := by
  rcases ltrim_getLast? (s := s.reverse) with h | h
  · left
    rw [rtrim_def, h]
    rfl
  · right
    rw [rtrim_def, List.head?_reverse, h, List.getLast?_reverse]

theorem trim_idem (s : Str) : trim (trim s) = trim s := by
  apply trim_eq_self_of
  · intro x hx
    rcases head?_rtrim (s := ltrim s) with h | h
    · rw [show trim s = rtrim (ltrim s) from rfl, h] at hx
      simp at hx
    · refine ltrim_head_not_ws (s := s) x ?_
      rw [show trim s = rtrim (ltrim s) from rfl, h] at hx
      exact hx
  · intro x hx
    exact rtrim_getLast_not_ws x hx

theorem trim_cons_ws {c : Char} (h : rustIsWs c = true) (s : Str) :
    trim (c :: s) = trim s := by
  unfold trim
  rw [ltrim_cons_of_ws h]

theorem rtrim_append_ws {c : Char} (h : rustIsWs c = true) (x : Str) :
    rtrim (x ++ [c]) = rtrim x := by
  rw [rtrim_def, rtrim_def, List.reverse_append]
  simp [ltrim_cons_of_ws h]

theorem rtrim_eq_nil_iff {s : Str} : rtrim s = [] ↔ ∀ x ∈ s, rustIsWs x = true := by
  rw [rtrim_def, List.reverse_eq_nil_iff, ltrim_eq_nil_iff]
  constructor
  · exact fun h x hx => h x (List.mem_reverse.mpr hx)
  · exact fun h x hx => h x (List.mem_reverse.mp hx)

theorem trim_cons_ne_nil {c : Char} (h : rustIsWs c = false) (s : Str) :
    trim (c :: s) ≠ [] := by
  unfold trim
  rw [ltrim_cons_of_not_ws h]
  intro hnil
  have hall := rtrim_eq_nil_iff.mp hnil
  have := hall c (List.mem_cons_self c s)
  rw [h] at this
  exact Bool.false_ne_true this

/-! ## Lemmas: decimal rendering and parsing -/

theorem digitChar_val : ∀ n, n < 10 → (digitChar n).toNat - 48 = n := by decide

theorem digitChar_isDigit : ∀ n, n < 10 → isAsciiDigit (digitChar n) = true := by decide

theorem natToStrFuel_congr : ∀ f1 f2 n : Nat, n ≤ f1 → n ≤ f2 →
    natToStrFuel f1 n = natToStrFuel f2 n := by
  intro f1
  induction f1 with
  | zero =>
    intro f2 n h1 _h2
    have hn : n = 0 := Nat.le_zero.mp h1
    subst hn
    cases f2 with
    | zero => rfl
    | succ k => simp [natToStrFuel]
  | succ f ih =>
    intro f2 n h1 h2
    cases f2 with
    | zero =>
      have hn : n = 0 := Nat.le_zero.mp h2
      subst hn
      simp [natToStrFuel]
    | succ k =>
      simp only [natToStrFuel]
      by_cases hn : n < 10
      · simp [hn]
      · simp only [if_neg hn]
        have hdiv := Nat.div_lt_self (show 0 < n by omega) (show 1 < 10 by omega)
        rw [ih k (n / 10) (by omega) (by omega)]

theorem decVal_append_digit (a : Str) (c : Char) :
    decVal (a ++ [c]) = 10 * decVal a + (c.toNat - 48) := by
  unfold decVal
  rw [List.foldl_append]
  simp [Nat.mul_comm]

theorem decVal_natToStrFuel : ∀ f n, n ≤ f → decVal (natToStrFuel f n) = n := by
  intro f
  induction f with
  | zero =>
    intro n h
    have hn : n = 0 := Nat.le_zero.mp h
    subst hn
    decide
  | succ f ih =>
    intro n h
    simp only [natToStrFuel]
    by_cases hn : n < 10
    · rw [if_pos hn]
      have hv := digitChar_val n hn
      simp only [decVal, List.foldl_cons, List.foldl_nil]
      omega
    · rw [if_neg hn]
      rw [decVal_append_digit]
      have hdiv := Nat.div_lt_self (show 0 < n by omega) (show 1 < 10 by omega)
      rw [ih _ (by omega)]
      have h10 : n % 10 < 10 := Nat.mod_lt _ (by omega)
      rw [digitChar_val _ h10]
      omega

theorem decVal_natToStr (n : Nat) : decVal (natToStr n) = n :=
  decVal_natToStrFuel n n (Nat.le_refl n)

theorem natToStr_inj {a b : Nat} (h : natToStr a = natToStr b) : a = b := by
  have hd := congrArg decVal h
  rwa [decVal_natToStr, decVal_natToStr] at hd

theorem natToStrFuel_all_digits : ∀ f n, n ≤ f →
    (natToStrFuel f n).all isAsciiDigit = true := by
  intro f
  induction f with
  | zero =>
    intro n h
    have hn : n = 0 := Nat.le_zero.mp h
    subst hn
    decide
  | succ f ih =>
    intro n h
    simp only [natToStrFuel]
    by_cases hn : n < 10
    · rw [if_pos hn]
      simp [digitChar_isDigit n hn]
    · rw [if_neg hn]
      have hdiv := Nat.div_lt_self (show 0 < n by omega) (show 1 < 10 by omega)
      have h10 : n % 10 < 10 := Nat.mod_lt _ (by omega)
      rw [List.all_append, Bool.and_eq_true]
      refine ⟨ih (n / 10) (by omega), ?_⟩
      simp [digitChar_isDigit _ h10]

theorem natToStrFuel_ne_nil : ∀ f n, natToStrFuel f n ≠ [] := by
  intro f n
  cases f with
  | zero => simp [natToStrFuel]
  | succ f =>
    simp only [natToStrFuel]
    by_cases hn : n < 10
    · simp [hn]
    · simp [hn]

theorem parseU32_natToStr {n : Nat} (h : n < 2 ^ 32) : parseU32 (natToStr n) = some n := by
  have hall : (natToStr n).all isAsciiDigit = true :=
    natToStrFuel_all_digits n n (Nat.le_refl n)
  have hne : natToStr n ≠ [] := natToStrFuel_ne_nil n n
  have hhead : ¬ (natToStr n).headD ' ' = '+' := by
    cases hs : natToStr n with
    | nil => exact absurd hs hne
    | cons c cs =>
      have hc : isAsciiDigit c = true := by
        rw [hs, List.all_cons, Bool.and_eq_true] at hall
        exact hall.1
      simp only [List.headD_cons]
      intro hplus
      subst hplus
      exact absurd hc (by decide)
  unfold parseU32
  dsimp only
  rw [if_neg hhead, if_pos ⟨hne, hall⟩, decVal_natToStr, if_pos h]

/-! ## Lemmas: split_once -/

theorem splitOnce_append {c : Char} {k : Str} (h : c ∉ k) (rest : Str) :
    splitOnce c (k ++ c :: rest) = some (k, rest) := by
  induction k with
  | nil => simp [splitOnce]
  | cons x xs ih =>
    have hx : ¬ x = c := fun hxc => h (hxc ▸ List.mem_cons_self x xs)
    have h' : c ∉ xs := fun hm => h (List.mem_cons_of_mem _ hm)
    simp [splitOnce, if_neg hx, ih h', List.append_eq]

theorem splitOnce_mem {c : Char} {s a b : Str} (h : splitOnce c s = some (a, b)) :
    (∀ x ∈ a, x ∈ s) ∧ (∀ x ∈ b, x ∈ s) := by
  induction s generalizing a b with
  | nil => simp [splitOnce] at h
  | cons y ys ih =>
    simp only [splitOnce] at h
    by_cases hy : y = c
    · rw [if_pos hy] at h
      simp only [Option.some.injEq, Prod.mk.injEq] at h
      obtain ⟨rfl, rfl⟩ := h
      exact ⟨by simp, fun x hx => List.mem_cons_of_mem _ hx⟩
    · rw [if_neg hy] at h
      cases ho : splitOnce c ys with
      | none => rw [ho] at h; simp at h
      | some pq =>
        rw [ho] at h
        obtain ⟨p, q⟩ := pq
        simp only [Option.map_some', Option.some.injEq, Prod.mk.injEq] at h
        obtain ⟨rfl, rfl⟩ := h
        obtain ⟨hp, hq⟩ := ih ho
        constructor
        · intro x hx
          rcases List.mem_cons.mp hx with rfl | hx
          · exact List.mem_cons_self _ _
          · exact List.mem_cons_of_mem _ (hp x hx)
        · exact fun x hx => List.mem_cons_of_mem _ (hq x hx)

theorem not_nl_mem_lines {s l : Str} (hl : l ∈ lines s) : '\n' ∉ l := by
  unfold lines at hl
  dsimp only at hl
  rcases List.mem_map.mp hl with ⟨p, hp, rfl⟩
  have hpmem : p ∈ splitOnChar '\n' s := by
    by_cases hc : (splitOnChar '\n' s).getLast? = some []
    · rw [if_pos hc] at hp
      exact List.dropLast_subset _ hp
    · rw [if_neg hc] at hp
      exact hp
  intro hmem
  exact not_mem_of_mem_splitOnChar hpmem (mem_stripCR _ hmem)

/-! ## Lemmas: task codec -/

/-- Header-field values the codec round-trips exactly: no surrounding
whitespace and single-line. -/
def fieldSafe (v : Str) : Prop := trim v = v ∧ '\n' ∉ v

/-- Tags the codec round-trips exactly: nonempty, no surrounding
whitespace, single-line, comma-free. -/
def tagSafe (t : Str) : Prop := t ≠ [] ∧ trim t = t ∧ '\n' ∉ t ∧ ',' ∉ t

instance (v : Str) : Decidable (fieldSafe v) :=
  inferInstanceAs (Decidable (trim v = v ∧ '\n' ∉ v))

instance (t : Str) : Decidable (tagSafe t) :=
  inferInstanceAs (Decidable (t ≠ [] ∧ trim t = t ∧ '\n' ∉ t ∧ ',' ∉ t))

theorem splitOnChar_of_not_mem {c : Char} {s : Str} (h : c ∉ s) :
    splitOnChar c s = [s] := by
  induction s with
  | nil => rfl
  | cons x xs ih =>
    have hx : ¬ x = c := fun hxc => h (hxc ▸ List.mem_cons_self x xs)
    have h' : c ∉ xs := fun hm => h (List.mem_cons_of_mem _ hm)
    simp [splitOnChar, if_neg hx, ih h']

theorem parseLines_blank (ls : List Str) (acc : List (Str × Str)) :
    parseLines ([] :: ls) acc = (acc, ls) := by
  simp [parseLines, trim, ltrim, rtrim]

theorem parseLines_header_line {kname v : Str} (ls : List Str) (acc : List (Str × Str))
    (hk_ne : kname ≠ []) (hk_head : rustIsWs (kname.headD ' ') = false)
    (hk_colon : ':' ∉ kname) (hk_trim : trim kname = kname)
    (hv : trim v = v) :
    parseLines ((kname ++ ':' :: ' ' :: v) :: ls) acc =
      parseLines ls (acc ++ [(kname, v)]) := by
  cases kname with
  | nil => exact absurd rfl hk_ne
  | cons k0 ks =>
    have hne : ¬ trim ((k0 :: ks) ++ ':' :: ' ' :: v) = [] :=
      trim_cons_ne_nil (by simpa using hk_head) _
    have hsplit := splitOnce_append (c := ':') (k := k0 :: ks) hk_colon (' ' :: v)
    simp only [parseLines, if_neg hne, hsplit]
    rw [show trim (' ' :: v) = trim v from trim_cons_ws (by decide) v, hv, hk_trim]

theorem hdrGet_nil (k : Str) : hdrGet [] k = none := rfl

theorem hdrGet_cons_ne {k' k : Str} (v : Str) (rest : List (Str × Str))
    (h : ¬ k' = k) : hdrGet ((k', v) :: rest) k = hdrGet rest k := by
  simp only [hdrGet]
  cases hdrGet rest k <;> simp [h]

theorem hdrGet_cons_of_none {k' k : Str} (v : Str) (rest : List (Str × Str))
    (h : k' = k) (hr : hdrGet rest k = none) :
    hdrGet ((k', v) :: rest) k = some v := by
  simp only [hdrGet, hr, if_pos h]

theorem hdrGet_mem {hdr : List (Str × Str)} {k v : Str}
    (h : hdrGet hdr k = some v) : ∃ k', (k', v) ∈ hdr := by
  induction hdr with
  | nil => simp [hdrGet] at h
  | cons kv rest ih =>
    obtain ⟨k', v'⟩ := kv
    simp only [hdrGet] at h
    cases ho : hdrGet rest k with
    | some w =>
      rw [ho] at h
      simp only [Option.some.injEq] at h
      subst h
      obtain ⟨k2, hk2⟩ := ih ho
      exact ⟨k2, List.mem_cons_of_mem _ hk2⟩
    | none =>
      rw [ho] at h
      by_cases hk : k' = k
      · rw [if_pos hk] at h
        simp only [Option.some.injEq] at h
        subst h
        exact ⟨k', List.mem_cons_self _ _⟩
      · rw [if_neg hk] at h
        simp at h

/-- The joined tags string inherits safety from its tags. -/
theorem joinComma_fieldSafe {tags : List Str} (h : ∀ tg ∈ tags, tagSafe tg) :
    fieldSafe (joinComma tags) := by
  induction tags with
  | nil => exact ⟨rfl, by simp [joinComma, intercal]⟩
  | cons t rest ih =>
    obtain ⟨ht_ne, ht_trim, ht_nl, _⟩ := h t (List.mem_cons_self t rest)
    obtain ⟨hlt, hrt⟩ := trim_eq_self_decomp ht_trim
    cases rest with
    | nil => exact ⟨ht_trim, ht_nl⟩
    | cons t2 rest2 =>
      obtain ⟨ih_trim, ih_nl⟩ := ih (fun tg htg => h tg (List.mem_cons_of_mem _ htg))
      obtain ⟨ih_lt, ih_rt⟩ := trim_eq_self_decomp ih_trim
      have hjoin : joinComma (t :: t2 :: rest2) =
          t ++ (',' :: ' ' :: joinComma (t2 :: rest2)) := by
        simp [joinComma, intercal, str]
      constructor
      · rw [hjoin]
        apply trim_eq_self_of
        · intro x hx
          cases htc : t with
          | nil => exact absurd htc ht_ne
          | cons c cs =>
            rw [htc] at hx
            simp only [List.cons_append, List.head?_cons, Option.mem_def,
              Option.some.injEq] at hx
            have hhead := ltrim_eq_self_iff.mp hlt
            rw [htc] at hhead
            rw [← hx]
            exact hhead c (by simp)
        · intro x hx
          rw [List.getLast?_append_cons] at hx
          cases hJ : joinComma (t2 :: rest2) with
          | nil =>
            exfalso
            obtain ⟨ht2_ne, _, _, _⟩ := h t2 (List.mem_cons_of_mem _ (List.mem_cons_self _ _))
            apply ht2_ne
            cases rest2 with
            | nil => exact hJ
            | cons t3 rest3 =>
              have hJ' : t2 ++ str ", " ++ intercal (str ", ") (t3 :: rest3) = [] := by
                simpa [joinComma, intercal] using hJ
              exact (List.append_eq_nil.mp (List.append_eq_nil.mp hJ').1).1
          | cons j js =>
            rw [hJ, List.getLast?_cons_cons, List.getLast?_cons_cons] at hx
            have hall := rtrim_eq_self_iff.mp ih_rt
            rw [hJ] at hall
            exact hall x hx
      · rw [hjoin]
        intro hmem
        rcases List.mem_append.mp hmem with hmem | hmem
        · exact ht_nl hmem
        · rcases List.mem_cons.mp hmem with hc | hmem
          · exact absurd hc (by decide)
          · rcases List.mem_cons.mp hmem with hc | hmem
            · exact absurd hc (by decide)
            · exact ih_nl hmem

/-- Splitting the comma-joined tags recovers the tags. -/
theorem splitTags_joinComma {tags : List Str} (h : ∀ tg ∈ tags, tagSafe tg)
    (hne : tags ≠ []) : splitTags (joinComma tags) = tags := by
  induction tags with
  | nil => exact absurd rfl hne
  | cons t rest ih =>
    obtain ⟨ht_ne, ht_trim, _, ht_comma⟩ := h t (List.mem_cons_self t rest)
    cases rest with
    | nil =>
      unfold splitTags
      rw [show joinComma [t] = t from rfl, splitOnChar_of_not_mem ht_comma]
      simp [ht_trim, ht_ne]
    | cons t2 rest2 =>
      have hrest : ∀ tg ∈ t2 :: rest2, tagSafe tg :=
        fun tg htg => h tg (List.mem_cons_of_mem _ htg)
      have hjoin : joinComma (t :: t2 :: rest2) =
          t ++ (',' :: ' ' :: joinComma (t2 :: rest2)) := by
        simp [joinComma, intercal, str]
      unfold splitTags
      rw [hjoin, splitOnChar_append_sep ht_comma]
      cases hsp : splitOnChar ',' (joinComma (t2 :: rest2)) with
      | nil => exact absurd hsp (splitOnChar_ne_nil _ _)
      | cons q qs =>
        have hs : splitOnChar ',' (' ' :: joinComma (t2 :: rest2)) =
            (' ' :: q) :: qs := by
          simp [splitOnChar, hsp]
        rw [hs]
        have ihr := ih hrest (by simp)
        unfold splitTags at ihr
        rw [hsp] at ihr
        simp only [List.map_cons] at ihr ⊢
        rw [show trim (' ' :: q) = trim q from trim_cons_ws (by decide) q,
          show trim t = t from ht_trim]
        rw [List.filter_cons_of_pos (by simpa using ht_ne)]
        rw [ihr]

theorem rtrim_stable_no_cr {v : Str} (hv : rtrim v = v) : v.getLast? ≠ some '\r' := by
  intro h
  have hws := rtrim_eq_self_iff.mp hv '\r' (Option.mem_def.mpr h)
  exact absurd hws (by decide)

theorem headerLine_stripCR {pre v : Str} (hpre : pre.getLast? ≠ some '\r')
    (hv : rtrim v = v) : stripCR (pre ++ v) = pre ++ v := by
  apply stripCR_eq_self
  cases hv0 : v with
  | nil => simpa [hv0] using hpre
  | cons x xs =>
    rw [List.getLast?_append_cons]
    rw [hv0] at hv
    exact rtrim_stable_no_cr hv

theorem headerLine_no_nl {pre v : Str} (hpre : '\n' ∉ pre) (hv : '\n' ∉ v) :
    '\n' ∉ pre ++ v := fun hm => (List.mem_append.mp hm).elim hpre hv

/-- The serialized task, re-associated into its line structure. -/
theorem write_task_eq (t : Task) :
    write_task t =
      (str "creator: " ++ t.creator) ++ '\n' ::
      ((str "assigned_to: " ++ t.assigned_to) ++ '\n' ::
      ((str "created_at: " ++ t.created_at) ++ '\n' ::
      ((str "updated_at: " ++ t.updated_at) ++ '\n' ::
      ((str "status: " ++ t.status) ++ '\n' ::
      ((str "tags: " ++ (if t.tags = [] then [] else joinComma t.tags)) ++ '\n' ::
      ((str "title: " ++ t.title) ++ '\n' ::
      ([] ++ '\n' :: (t.description ++ ['\n'])))))))) := by
  simp only [write_task,
    show str "\nassigned_to: " = '\n' :: str "assigned_to: " from rfl,
    show str "\ncreated_at: " = '\n' :: str "created_at: " from rfl,
    show str "\nupdated_at: " = '\n' :: str "updated_at: " from rfl,
    show str "\nstatus: " = '\n' :: str "status: " from rfl,
    show str "\ntags: " = '\n' :: str "tags: " from rfl,
    show str "\ntitle: " = '\n' :: str "title: " from rfl,
    show str "\n\n" = '\n' :: '\n' :: ([] : Str) from rfl,
    show str "\n" = ['\n'] from rfl,
    List.append_assoc, List.cons_append, List.nil_append]

/-- The header association list `parse_task` builds from `write_task t`. -/
def taskHeader (t : Task) : List (Str × Str) :=
  [(str "creator", t.creator), (str "assigned_to", t.assigned_to),
   (str "created_at", t.created_at), (str "updated_at", t.updated_at),
   (str "status", t.status),
   (str "tags", if t.tags = [] then [] else joinComma t.tags),
   (str "title", t.title)]

theorem parseLines_write_task (t : Task)
    (hc : fieldSafe t.creator) (ha : fieldSafe t.assigned_to)
    (hcr : fieldSafe t.created_at) (hu : fieldSafe t.updated_at)
    (hst : fieldSafe t.status) (hti : fieldSafe t.title)
    (htags : ∀ tg ∈ t.tags, tagSafe tg) :
    parseLines (lines (write_task t)) [] =
      (taskHeader t, lines (t.description ++ ['\n'])) := by
  have htagstr : fieldSafe (if t.tags = [] then [] else joinComma t.tags) := by
    split
    · exact ⟨rfl, by simp⟩
    · exact joinComma_fieldSafe htags
  have hlines : lines (write_task t) =
      (str "creator: " ++ t.creator) ::
      (str "assigned_to: " ++ t.assigned_to) ::
      (str "created_at: " ++ t.created_at) ::
      (str "updated_at: " ++ t.updated_at) ::
      (str "status: " ++ t.status) ::
      (str "tags: " ++ (if t.tags = [] then [] else joinComma t.tags)) ::
      (str "title: " ++ t.title) ::
      [] :: lines (t.description ++ ['\n']) := by
    rw [write_task_eq]
    rw [lines_append (headerLine_no_nl (by decide) hc.2),
      headerLine_stripCR (by decide) (trim_eq_self_decomp hc.1).2]
    rw [lines_append (headerLine_no_nl (by decide) ha.2),
      headerLine_stripCR (by decide) (trim_eq_self_decomp ha.1).2]
    rw [lines_append (headerLine_no_nl (by decide) hcr.2),
      headerLine_stripCR (by decide) (trim_eq_self_decomp hcr.1).2]
    rw [lines_append (headerLine_no_nl (by decide) hu.2),
      headerLine_stripCR (by decide) (trim_eq_self_decomp hu.1).2]
    rw [lines_append (headerLine_no_nl (by decide) hst.2),
      headerLine_stripCR (by decide) (trim_eq_self_decomp hst.1).2]
    rw [lines_append (headerLine_no_nl (by decide) htagstr.2),
      headerLine_stripCR (by decide) (trim_eq_self_decomp htagstr.1).2]
    rw [lines_append (headerLine_no_nl (by decide) hti.2),
      headerLine_stripCR (by decide) (trim_eq_self_decomp hti.1).2]
    rw [lines_append (l := []) (by decide)]
    rfl
  rw [hlines]
  rw [show str "creator: " ++ t.creator = str "creator" ++ ':' :: ' ' :: t.creator from rfl]
  rw [parseLines_header_line _ _ (by decide) (by decide) (by decide) (by decide) hc.1]
  rw [show str "assigned_to: " ++ t.assigned_to =
    str "assigned_to" ++ ':' :: ' ' :: t.assigned_to from rfl]
  rw [parseLines_header_line _ _ (by decide) (by decide) (by decide) (by decide) ha.1]
  rw [show str "created_at: " ++ t.created_at =
    str "created_at" ++ ':' :: ' ' :: t.created_at from rfl]
  rw [parseLines_header_line _ _ (by decide) (by decide) (by decide) (by decide) hcr.1]
  rw [show str "updated_at: " ++ t.updated_at =
    str "updated_at" ++ ':' :: ' ' :: t.updated_at from rfl]
  rw [parseLines_header_line _ _ (by decide) (by decide) (by decide) (by decide) hu.1]
  rw [show str "status: " ++ t.status = str "status" ++ ':' :: ' ' :: t.status from rfl]
  rw [parseLines_header_line _ _ (by decide) (by decide) (by decide) (by decide) hst.1]
  rw [show str "tags: " ++ (if t.tags = [] then [] else joinComma t.tags) =
    str "tags" ++ ':' :: ' ' :: (if t.tags = [] then [] else joinComma t.tags) from rfl]
  rw [parseLines_header_line _ _ (by decide) (by decide) (by decide) (by decide) htagstr.1]
  rw [show str "title: " ++ t.title = str "title" ++ ':' :: ' ' :: t.title from rfl]
  rw [parseLines_header_line _ _ (by decide) (by decide) (by decide) (by decide) hti.1]
  rw [parseLines_blank]
  simp [taskHeader]

theorem hdrGet_taskHeader_creator (t : Task) :
    hdrGet (taskHeader t) (str "creator") = some t.creator := by
  unfold taskHeader
  refine hdrGet_cons_of_none _ _ rfl ?_
  rw [hdrGet_cons_ne _ _ (by decide), hdrGet_cons_ne _ _ (by decide),
    hdrGet_cons_ne _ _ (by decide), hdrGet_cons_ne _ _ (by decide),
    hdrGet_cons_ne _ _ (by decide), hdrGet_cons_ne _ _ (by decide), hdrGet_nil]

theorem hdrGet_taskHeader_assigned (t : Task) :
    hdrGet (taskHeader t) (str "assigned_to") = some t.assigned_to := by
  unfold taskHeader
  rw [hdrGet_cons_ne _ _ (by decide)]
  refine hdrGet_cons_of_none _ _ rfl ?_
  rw [hdrGet_cons_ne _ _ (by decide), hdrGet_cons_ne _ _ (by decide),
    hdrGet_cons_ne _ _ (by decide), hdrGet_cons_ne _ _ (by decide),
    hdrGet_cons_ne _ _ (by decide), hdrGet_nil]

theorem hdrGet_taskHeader_created (t : Task) :
    hdrGet (taskHeader t) (str "created_at") = some t.created_at := by
  unfold taskHeader
  rw [hdrGet_cons_ne _ _ (by decide), hdrGet_cons_ne _ _ (by decide)]
  refine hdrGet_cons_of_none _ _ rfl ?_
  rw [hdrGet_cons_ne _ _ (by decide), hdrGet_cons_ne _ _ (by decide),
    hdrGet_cons_ne _ _ (by decide), hdrGet_cons_ne _ _ (by decide), hdrGet_nil]

theorem hdrGet_taskHeader_updated (t : Task) :
    hdrGet (taskHeader t) (str "updated_at") = some t.updated_at := by
  unfold taskHeader
  rw [hdrGet_cons_ne _ _ (by decide), hdrGet_cons_ne _ _ (by decide),
    hdrGet_cons_ne _ _ (by decide)]
  refine hdrGet_cons_of_none _ _ rfl ?_
  rw [hdrGet_cons_ne _ _ (by decide), hdrGet_cons_ne _ _ (by decide),
    hdrGet_cons_ne _ _ (by decide), hdrGet_nil]

theorem hdrGet_taskHeader_status (t : Task) :
    hdrGet (taskHeader t) (str "status") = some t.status := by
  unfold taskHeader
  rw [hdrGet_cons_ne _ _ (by decide), hdrGet_cons_ne _ _ (by decide),
    hdrGet_cons_ne _ _ (by decide), hdrGet_cons_ne _ _ (by decide)]
  refine hdrGet_cons_of_none _ _ rfl ?_
  rw [hdrGet_cons_ne _ _ (by decide), hdrGet_cons_ne _ _ (by decide), hdrGet_nil]

theorem hdrGet_taskHeader_tags (t : Task) :
    hdrGet (taskHeader t) (str "tags") =
      some (if t.tags = [] then [] else joinComma t.tags) := by
  unfold taskHeader
  rw [hdrGet_cons_ne _ _ (by decide), hdrGet_cons_ne _ _ (by decide),
    hdrGet_cons_ne _ _ (by decide), hdrGet_cons_ne _ _ (by decide),
    hdrGet_cons_ne _ _ (by decide)]
  refine hdrGet_cons_of_none _ _ rfl ?_
  rw [hdrGet_cons_ne _ _ (by decide), hdrGet_nil]

theorem hdrGet_taskHeader_title (t : Task) :
    hdrGet (taskHeader t) (str "title") = some t.title := by
  unfold taskHeader
  rw [hdrGet_cons_ne _ _ (by decide), hdrGet_cons_ne _ _ (by decide),
    hdrGet_cons_ne _ _ (by decide), hdrGet_cons_ne _ _ (by decide),
    hdrGet_cons_ne _ _ (by decide), hdrGet_cons_ne _ _ (by decide)]
  exact hdrGet_cons_of_none _ _ rfl (hdrGet_nil _)

/-- Decoding the encoded task recovers every header field and re-splits the
tags; the description comes back as its line decomposition re-joined. -/
theorem parse_write_task (t : Task) (stem fldArg : Str)
    (hc : fieldSafe t.creator) (ha : fieldSafe t.assigned_to)
    (hcr : fieldSafe t.created_at) (hu : fieldSafe t.updated_at)
    (hst : fieldSafe t.status) (hti : fieldSafe t.title)
    (htags : ∀ tg ∈ t.tags, tagSafe tg) :
    parse_task (write_task t) stem fldArg =
      { id := stem, title := t.title,
        description := joinLines (lines (t.description ++ ['\n'])),
        creator := t.creator, assigned_to := t.assigned_to,
        created_at := t.created_at, updated_at := t.updated_at,
        status := t.status, tags := t.tags, folder := fldArg } := by
  unfold parse_task
  rw [parseLines_write_task t hc ha hcr hu hst hti htags]
  dsimp only
  rw [hdrGet_taskHeader_title, hdrGet_taskHeader_creator, hdrGet_taskHeader_assigned,
    hdrGet_taskHeader_created, hdrGet_taskHeader_updated, hdrGet_taskHeader_status,
    hdrGet_taskHeader_tags]
  dsimp only [Option.getD_some]
  by_cases htag0 : t.tags = []
  · rw [if_pos htag0, htag0]
    rfl
  · rw [if_neg htag0, splitTags_joinComma htags htag0]

/-! ## Claim C1: task codec round trip -/

/-- A task whose `creator` has leading whitespace: header values are trimmed
on decode, so the round trip loses the space. -/
def taskCex : Task :=
  { id := str "t", title := str "x", description := str "",
    creator := str " y", assigned_to := str "", created_at := str "",
    updated_at := str "", status := str "backlog",
    tags := [], folder := str "backlog" }

/-- C1 (counterexample): the round trip as claimed — for *every* Task —
fails: a `creator` of `" y"` decodes to `"y"` (a field other than `id`
changes), because `parse_task` trims header values. -/
theorem C1_roundtrip_counterexample :
    (parse_task (write_task taskCex) taskCex.id taskCex.folder).creator ≠
      taskCex.creator := by decide

/-- C1 (amended): the codec round trip holds for every task whose header
fields (`title`, `creator`, `assigned_to`, `created_at`, `updated_at`,
`status`) carry no surrounding whitespace and no newline, whose tags are
nonempty, trimmed, newline-free and comma-free, and whose description
contains no carriage return: decoding the encoded bytes with `t.folder` as
the physical folder reproduces `t` in every field except `id`, which is
the file-stem argument. -/
theorem C1_roundtrip (t : Task) (stem : Str)
    (hc : fieldSafe t.creator) (ha : fieldSafe t.assigned_to)
    (hcr : fieldSafe t.created_at) (hu : fieldSafe t.updated_at)
    (hst : fieldSafe t.status) (hti : fieldSafe t.title)
    (htags : ∀ tg ∈ t.tags, tagSafe tg)
    (hd : '\r' ∉ t.description) :
    parse_task (write_task t) stem t.folder = { t with id := stem } := by
  rw [parse_write_task t stem t.folder hc ha hcr hu hst hti htags]
  rw [joinLines_lines_of_no_cr hd]

/-- A concrete well-formed task for witnesses. -/
def taskW : Task :=
  { id := str "fix-login-bug", title := str "Fix login bug",
    description := str "line1\n\nline2", creator := str "alice",
    assigned_to := str "", created_at := str "2024-01-01T10:00:00Z",
    updated_at := str "2024-01-02T10:00:00Z", status := str "backlog",
    tags := [str "auth", str "p1"], folder := str "backlog" }

theorem C1_roundtrip_witness :
    parse_task (write_task taskW) (str "other-stem") taskW.folder =
      { taskW with id := str "other-stem" } :=
  C1_roundtrip taskW (str "other-stem") (by decide) (by decide) (by decide)
    (by decide) (by decide) (by decide) (by decide) (by decide)

/-! ## Claim C9: slugify produces valid, idempotent ids -/

theorem char_le_iff {a b : Char} : a ≤ b ↔ a.toNat ≤ b.toNat := by
  rw [Char.le_def, UInt32.le_def, BitVec.le_def]
  exact Iff.rfl

theorem char_ofNat_toNat {n : Nat} (h : n < 55296) : (Char.ofNat n).toNat = n := by
  have hv : n.isValidChar := Or.inl h
  rw [Char.ofNat, dif_pos hv]
  simp [Char.ofNatAux, Char.toNat, UInt32.toNat, BitVec.toNat_ofNatLt]

/-- Lowering an ASCII uppercase letter yields a character in the id set. -/
theorem rustLowerChar_isIdChar {c : Char}
    (h : isAsciiAlnum (rustLowerChar c) = true) :
    isIdChar (rustLowerChar c) = true := by
  unfold rustLowerChar at *
  by_cases hu : 'A' ≤ c ∧ c ≤ 'Z'
  · rw [if_pos hu] at *
    have e1 : ('A').toNat = 65 := rfl
    have e2 : ('Z').toNat = 90 := rfl
    have h1 : 65 ≤ c.toNat := e1 ▸ char_le_iff.mp hu.1
    have h2 : c.toNat ≤ 90 := e2 ▸ char_le_iff.mp hu.2
    have htn : (Char.ofNat (c.toNat + 32)).toNat = c.toNat + 32 :=
      char_ofNat_toNat (by omega)
    have ea : ('a').toNat = 97 := rfl
    have ez : ('z').toNat = 122 := rfl
    have hlow : 'a' ≤ Char.ofNat (c.toNat + 32) := by
      rw [char_le_iff, htn]
      omega
    have hhigh : Char.ofNat (c.toNat + 32) ≤ 'z' := by
      rw [char_le_iff, htn]
      omega
    simp only [isIdChar, Bool.or_eq_true, Bool.and_eq_true, decide_eq_true_eq,
      beq_iff_eq]
    exact Or.inl (Or.inl (And.intro hlow hhigh))
  · rw [if_neg hu] at *
    simp only [isAsciiAlnum, Bool.or_eq_true, Bool.and_eq_true,
      decide_eq_true_eq] at h
    simp only [isIdChar, Bool.or_eq_true, Bool.and_eq_true, decide_eq_true_eq,
      beq_iff_eq]
    rcases h with (h | h) | h
    · exact Or.inl (Or.inl h)
    · exact absurd h hu
    · exact Or.inl (Or.inr h)

/-- Characters already in the id set are untouched by lowering. -/
theorem rustLowerChar_fix {c : Char} (h : isIdChar c = true) :
    rustLowerChar c = c := by
  unfold rustLowerChar
  rw [if_neg]
  rintro ⟨h1, h2⟩
  have e1 : ('A').toNat = 65 := rfl
  have e2 : ('Z').toNat = 90 := rfl
  have hn1 : 65 ≤ c.toNat := e1 ▸ char_le_iff.mp h1
  have hn2 : c.toNat ≤ 90 := e2 ▸ char_le_iff.mp h2
  simp only [isIdChar, Bool.or_eq_true, Bool.and_eq_true, decide_eq_true_eq,
    beq_iff_eq] at h
  rcases h with (h | h) | h
  · have hle : ('a').toNat ≤ c.toNat := char_le_iff.mp h.1
    have e : ('a').toNat = 97 := rfl
    omega
  · have hle : c.toNat ≤ ('9').toNat := char_le_iff.mp h.2
    have e : ('9').toNat = 57 := rfl
    omega
  · have e : c.toNat = 45 := by
      rw [h]
      decide
    omega

theorem isAsciiAlnum_of_idChar_ne_dash {c : Char} (h : isIdChar c = true)
    (hne : ¬ c = '-') : isAsciiAlnum c = true := by
  simp only [isIdChar, Bool.or_eq_true, Bool.and_eq_true, decide_eq_true_eq,
    beq_iff_eq] at h
  simp only [isAsciiAlnum, Bool.or_eq_true, Bool.and_eq_true, decide_eq_true_eq]
  rcases h with (h | h) | h
  · exact Or.inl (Or.inl h)
  · exact Or.inr h
  · exact absurd h hne

/-- The relation "not two dashes in a row". -/
def noDDRel (a b : Char) : Prop := ¬ (a = '-' ∧ b = '-')

/-- No two consecutive dashes. -/
def noDD (s : Str) : Prop := List.Chain' noDDRel s

/-- What slugify guarantees about its output (and what makes it a fixed
point of slugify). -/
def validSlug (s : Str) : Prop :=
  s ≠ [] ∧ (∀ c ∈ s, isIdChar c = true) ∧
  (∀ x ∈ s.head?, ¬ x = '-') ∧ (∀ x ∈ s.getLast?, ¬ x = '-') ∧ noDD s

instance : DecidableRel noDDRel := fun a b =>
  inferInstanceAs (Decidable (¬ (a = '-' ∧ b = '-')))

instance : DecidablePred noDD := fun s =>
  inferInstanceAs (Decidable (List.Chain' noDDRel s))

instance (s : Str) : Decidable (validSlug s) :=
  inferInstanceAs (Decidable (s ≠ [] ∧ (∀ c ∈ s, isIdChar c = true) ∧
    (∀ x ∈ s.head?, ¬ x = '-') ∧ (∀ x ∈ s.getLast?, ¬ x = '-') ∧ noDD s))

/-- Every character emitted by the slugify loop is a dash or an
ASCII-alphanumeric character of the input. -/
theorem slugifyCore_mem : ∀ (s : Str) (b : Bool), ∀ c' ∈ slugifyCore s b,
    c' = '-' ∨ (isAsciiAlnum c' = true ∧ c' ∈ s) := by
  intro s
  induction s with
  | nil => intro b c' h; simp [slugifyCore] at h
  | cons c cs ih =>
    intro b c' h
    simp only [slugifyCore] at h
    by_cases h1 : isAsciiAlnum c = true
    · rw [if_pos h1] at h
      rcases List.mem_cons.mp h with rfl | h
      · exact Or.inr ⟨h1, List.mem_cons_self _ _⟩
      · rcases ih false c' h with h | ⟨ha, hm⟩
        · exact Or.inl h
        · exact Or.inr ⟨ha, List.mem_cons_of_mem _ hm⟩
    · rw [if_neg h1] at h
      by_cases h2 : (rustIsWs c || c = '-' || c = '_') = true
      · rw [if_pos h2] at h
        by_cases hb : b
        · subst hb
          rw [if_pos rfl] at h
          rcases ih true c' h with h | ⟨ha, hm⟩
          · exact Or.inl h
          · exact Or.inr ⟨ha, List.mem_cons_of_mem _ hm⟩
        · rw [Bool.not_eq_true] at hb
          subst hb
          rw [if_neg (by simp)] at h
          rcases List.mem_cons.mp h with rfl | h
          · exact Or.inl rfl
          · rcases ih true c' h with h | ⟨ha, hm⟩
            · exact Or.inl h
            · exact Or.inr ⟨ha, List.mem_cons_of_mem _ hm⟩
      · rw [if_neg h2] at h
        rcases ih b c' h with h | ⟨ha, hm⟩
        · exact Or.inl h
        · exact Or.inr ⟨ha, List.mem_cons_of_mem _ hm⟩

/-- The slugify loop never emits two consecutive dashes, and after a dash
(`lastDash = true`) the next emitted character is not a dash. -/
theorem slugifyCore_noDD : ∀ (s : Str) (b : Bool),
    noDD (slugifyCore s b) ∧
    (b = true → ∀ x ∈ (slugifyCore s b).head?, ¬ x = '-') := by
  intro s
  induction s with
  | nil =>
    intro b
    exact ⟨List.chain'_nil, fun _ x hx => by simp [slugifyCore] at hx⟩
  | cons c cs ih =>
    intro b
    simp only [slugifyCore]
    by_cases h1 : isAsciiAlnum c = true
    · rw [if_pos h1]
      have hcne : ¬ c = '-' := fun hc => by
        rw [hc] at h1
        exact absurd h1 (by decide)
      constructor
      · rw [noDD, List.chain'_cons']
        exact ⟨fun y _ hcy => hcne hcy.1, (ih false).1⟩
      · intro _ x hx
        simp only [List.head?_cons, Option.mem_def, Option.some.injEq] at hx
        rw [← hx]
        exact hcne
    · rw [if_neg h1]
      by_cases h2 : (rustIsWs c || c = '-' || c = '_') = true
      · rw [if_pos h2]
        by_cases hb : b
        · subst hb
          rw [if_pos rfl]
          exact ⟨(ih true).1, fun _ => (ih true).2 rfl⟩
        · rw [Bool.not_eq_true] at hb
          subst hb
          rw [if_neg (by simp)]
          refine ⟨?_, fun hfalse => by cases hfalse⟩
          rw [noDD, List.chain'_cons']
          exact ⟨fun y hy hcy => (ih true).2 rfl y hy hcy.2, (ih true).1⟩
      · rw [if_neg h2]
        exact ih b

theorem dropWhile_head_not (p : Char → Bool) (l : Str) :
    ∀ x ∈ (l.dropWhile p).head?, p x = false := by
  induction l with
  | nil => simp
  | cons c cs ih =>
    by_cases h : p c
    · rw [List.dropWhile_cons_of_pos h]
      exact ih
    · rw [List.dropWhile_cons_of_neg h]
      intro x hx
      simp only [List.head?_cons, Option.mem_def, Option.some.injEq] at hx
      rw [← hx]
      simpa using h

theorem dropWhile_eq_self_of_head {p : Char → Bool} {l : Str}
    (h : ∀ x ∈ l.head?, p x = false) : l.dropWhile p = l := by
  cases l with
  | nil => rfl
  | cons c cs =>
    refine List.dropWhile_cons_of_neg ?_
    have := h c (by simp)
    simp [this]

theorem dropWhile_getLast? (p : Char → Bool) (l : Str) :
    l.dropWhile p = [] ∨ (l.dropWhile p).getLast? = l.getLast? := by
  induction l with
  | nil => exact Or.inl rfl
  | cons c cs ih =>
    by_cases h : p c
    · rw [List.dropWhile_cons_of_pos h]
      rcases ih with h1 | h2
      · exact Or.inl h1
      · rcases hcs : cs with _ | ⟨d, ds⟩
        · exact Or.inl (by simp [hcs])
        · right
          rw [← hcs, h2, hcs, List.getLast?_cons_cons]
    · right
      rw [List.dropWhile_cons_of_neg h]

theorem trimDashes_head {s : Str} : ∀ x ∈ (trimDashes s).head?, ¬ x = '-' := by
  intro x hx
  unfold trimDashes at hx
  rw [List.head?_reverse] at hx
  rcases dropWhile_getLast? (fun c => c == '-') (s.dropWhile (fun c => c == '-')).reverse
    with h | h
  · rw [h] at hx
    simp at hx
  · rw [h, List.getLast?_reverse] at hx
    have hp := dropWhile_head_not (fun c => c == '-') s x hx
    simpa using hp

theorem trimDashes_getLast {s : Str} : ∀ x ∈ (trimDashes s).getLast?, ¬ x = '-' := by
  intro x hx
  unfold trimDashes at hx
  rw [List.getLast?_reverse] at hx
  have hp := dropWhile_head_not (fun c => c == '-') _ x hx
  simpa using hp

theorem mem_trimDashes {s : Str} : ∀ x ∈ trimDashes s, x ∈ s := by
  intro x hx
  unfold trimDashes at hx
  rw [List.mem_reverse] at hx
  have h1 := (List.dropWhile_sublist _).subset hx
  rw [List.mem_reverse] at h1
  exact (List.dropWhile_sublist _).subset h1

theorem noDD_reverse {s : Str} (h : noDD s) : noDD s.reverse := by
  unfold noDD at *
  rw [List.chain'_reverse]
  exact List.Chain'.imp (fun a b hab hp => hab ⟨hp.2, hp.1⟩) h

theorem noDD_dropWhile {p : Char → Bool} {s : Str} (h : noDD s) :
    noDD (s.dropWhile p) :=
  List.Chain'.suffix h (List.dropWhile_suffix p)

theorem noDD_trimDashes {s : Str} (h : noDD s) : noDD (trimDashes s) := by
  unfold trimDashes
  exact noDD_reverse (noDD_dropWhile (noDD_reverse (noDD_dropWhile h)))

/-- On input that is already a valid slug, the slugify loop is the
identity. -/
theorem slugifyCore_fix : ∀ (s : Str) (b : Bool),
    (∀ c ∈ s, isIdChar c = true) → noDD s →
    (b = true → ∀ x ∈ s.head?, ¬ x = '-') →
    slugifyCore s b = s := by
  intro s
  induction s with
  | nil => intro b _ _ _; rfl
  | cons c cs ih =>
    intro b hchars hdd hhead
    have hc := hchars c (List.mem_cons_self c cs)
    simp only [slugifyCore]
    by_cases hdash : c = '-'
    · subst hdash
      rw [if_neg (by decide : ¬ isAsciiAlnum '-' = true)]
      rw [if_pos (by decide : (rustIsWs '-' || '-' = '-' || '-' = '_') = true)]
      have hb : b = false := by
        cases b with
        | false => rfl
        | true => exact absurd rfl (hhead rfl '-' (by simp))
      subst hb
      rw [if_neg (by simp)]
      have hcs_head : ∀ x ∈ cs.head?, ¬ x = '-' := by
        intro x hx hxd
        have hrel := (List.chain'_cons'.mp hdd).1 x hx
        exact hrel ⟨rfl, hxd⟩
      rw [ih true (fun d hd => hchars d (List.mem_cons_of_mem _ hd))
        (List.Chain'.tail hdd) (fun _ => hcs_head)]
    · have halnum := isAsciiAlnum_of_idChar_ne_dash hc hdash
      rw [if_pos halnum]
      rw [ih false (fun d hd => hchars d (List.mem_cons_of_mem _ hd))
        (List.Chain'.tail hdd) (fun hf => absurd hf (by simp))]

/-- slugify always yields a valid slug. -/
theorem validSlug_slugify (s : Str) : validSlug (slugify s) := by
  unfold slugify
  dsimp only
  by_cases htriv : trimDashes (slugifyCore (s.map rustLowerChar) false) = []
  · rw [if_pos htriv]
    refine ⟨by decide, by decide, by decide, by decide, ?_⟩
    show List.Chain' noDDRel (str "task")
    rw [show str "task" = ['t', 'a', 's', 'k'] from rfl]
    exact List.Chain'.cons (by decide) (List.Chain'.cons (by decide)
      (List.Chain'.cons (by decide) (List.chain'_singleton _)))
  · rw [if_neg htriv]
    refine ⟨htriv, ?_, trimDashes_head, trimDashes_getLast,
      noDD_trimDashes (slugifyCore_noDD _ false).1⟩
    intro c hc
    have hmem := mem_trimDashes c hc
    rcases slugifyCore_mem _ false c hmem with hdash | ⟨halnum, hmemmap⟩
    · rw [hdash]
      decide
    · rcases List.mem_map.mp hmemmap with ⟨x, _, rfl⟩
      exact rustLowerChar_isIdChar halnum

/-- slugify fixes valid slugs. -/
theorem slugify_fix {s : Str} (h : validSlug s) : slugify s = s := by
  obtain ⟨hne, hchars, hhead, hlast, hdd⟩ := h
  unfold slugify
  dsimp only
  have hmap : s.map rustLowerChar = s := by
    calc s.map rustLowerChar = s.map id :=
          List.map_congr_left (fun x hx => rustLowerChar_fix (hchars x hx))
      _ = s := List.map_id s
  rw [hmap, slugifyCore_fix s false hchars hdd (fun hf => absurd hf (by simp))]
  have h1 : s.dropWhile (fun c => c == '-') = s :=
    dropWhile_eq_self_of_head (fun x hx => by simpa using hhead x hx)
  have h2 : s.reverse.dropWhile (fun c => c == '-') = s.reverse :=
    dropWhile_eq_self_of_head (fun x hx => by
      rw [List.head?_reverse] at hx
      simpa using hlast x hx)
  have htd : trimDashes s = s := by
    unfold trimDashes
    rw [h1, h2, List.reverse_reverse]
  rw [htd, if_neg hne]

/-- C9: for every input string, `slugify` returns a nonempty string of
lowercase ASCII letters, digits and `'-'` with no leading or trailing
dash; in particular the result passes `is_valid_id`, and `slugify` is
idempotent. -/
theorem C9_slugify (s : Str) :
    slugify s ≠ [] ∧ (∀ c ∈ slugify s, isIdChar c = true) ∧
    (∀ x ∈ (slugify s).head?, ¬ x = '-') ∧
    (∀ x ∈ (slugify s).getLast?, ¬ x = '-') ∧
    is_valid_id (slugify s) = true ∧
    slugify (slugify s) = slugify s := by
  obtain ⟨h1, h2, h3, h4, h5⟩ := validSlug_slugify s
  refine ⟨h1, h2, h3, h4, ?_, slugify_fix ⟨h1, h2, h3, h4, h5⟩⟩
  unfold is_valid_id
  rw [Bool.and_eq_true]
  constructor
  · simpa [List.isEmpty_iff] using h1
  · rw [List.all_eq_true]
    exact h2

/-- C9 witness: the guarantees at a concrete input. -/
theorem C9_slugify_witness :
    slugify (str "  Fix LOGIN bug!! ") ≠ [] ∧
    (∀ c ∈ slugify (str "  Fix LOGIN bug!! "), isIdChar c = true) ∧
    (∀ x ∈ (slugify (str "  Fix LOGIN bug!! ")).head?, ¬ x = '-') ∧
    (∀ x ∈ (slugify (str "  Fix LOGIN bug!! ")).getLast?, ¬ x = '-') ∧
    is_valid_id (slugify (str "  Fix LOGIN bug!! ")) = true ∧
    slugify (slugify (str "  Fix LOGIN bug!! ")) = slugify (str "  Fix LOGIN bug!! ") :=
  C9_slugify (str "  Fix LOGIN bug!! ")

/-! ## Claim C2: board-wide slug uniqueness -/

theorem candidateName_inj {base : Str} {n m : Nat}
    (h : candidateName base n = candidateName base m) : n = m := by
  unfold candidateName at h
  have h2 := List.append_cancel_left h
  injection h2 with _ h3
  exact natToStr_inj h3

theorem existsAnywhere_entry {fs : FS} {id : Str} {cfg : BoardConfig}
    (h : exists_anywhere fs id cfg = true) :
    ∃ e ∈ fs.files, e.name = id ++ str ".md" := by
  unfold exists_anywhere at h
  rw [List.any_eq_true] at h
  obtain ⟨col, _, hcol⟩ := h
  unfold FS.fileExists FS.fileContent at hcol
  rw [Option.isSome_map'] at hcol
  obtain ⟨e, he⟩ := Option.isSome_iff_exists.mp hcol
  have hmem := List.mem_of_find?_eq_some he
  have hpred := List.find?_some he
  rw [Bool.and_eq_true, beq_iff_eq, beq_iff_eq] at hpred
  exact ⟨e, hmem, hpred.2⟩

/-- Pigeonhole: among `files.length + 1` distinct candidate names, one is
free everywhere on the board. -/
theorem exists_free_slug (fs : FS) (base : Str) (cfg : BoardConfig) (n : Nat) :
    ∃ m, n ≤ m ∧ m ≤ n + fs.files.length ∧
      exists_anywhere fs (candidateName base m) cfg = false := by
  by_contra hcon
  push_neg at hcon
  have hall : ∀ m ∈ Finset.Icc n (n + fs.files.length),
      (candidateName base m ++ str ".md") ∈ (fs.files.map (·.name)).toFinset := by
    intro m hm
    rw [Finset.mem_Icc] at hm
    have hne := hcon m hm.1 hm.2
    have htrue : exists_anywhere fs (candidateName base m) cfg = true := by
      cases hx : exists_anywhere fs (candidateName base m) cfg with
      | false => exact absurd hx hne
      | true => rfl
    obtain ⟨e, hmem, hname⟩ := existsAnywhere_entry htrue
    rw [List.mem_toFinset, ← hname]
    exact List.mem_map_of_mem _ hmem
  have hinj : Set.InjOn (fun m => candidateName base m ++ str ".md")
      (Finset.Icc n (n + fs.files.length)) := by
    intro a _ b _ hab
    exact candidateName_inj (List.append_cancel_right hab)
  have hcard := Finset.card_le_card_of_injOn _ hall hinj
  have hc1 : (Finset.Icc n (n + fs.files.length)).card = fs.files.length + 1 := by
    rw [Nat.card_Icc]
    omega
  have hc2 : (fs.files.map (·.name)).toFinset.card ≤ fs.files.length := by
    calc (fs.files.map (·.name)).toFinset.card ≤ (fs.files.map (·.name)).length :=
          List.toFinset_card_le _
      _ = fs.files.length := List.length_map _ _
  omega

/-- The fueled loop finds exactly the first free candidate at or after `n`,
provided a free candidate exists within fuel reach. -/
theorem uniqueSlugLoop_spec (fs : FS) (base : Str) (cfg : BoardConfig) :
    ∀ (fuel n : Nat),
      (∃ m, n ≤ m ∧ m ≤ n + fuel ∧
        exists_anywhere fs (candidateName base m) cfg = false) →
      ∃ k, n ≤ k ∧
        uniqueSlugLoop fs base cfg fuel n = candidateName base k ∧
        exists_anywhere fs (candidateName base k) cfg = false ∧
        (∀ j, n ≤ j → j < k → exists_anywhere fs (candidateName base j) cfg = true) := by
  intro fuel
  induction fuel with
  | zero =>
    rintro n ⟨m, h1, h2, h3⟩
    have hm : m = n := by omega
    subst hm
    exact ⟨m, Nat.le_refl m, rfl, h3, fun j hj1 hj2 => by omega⟩
  | succ fuel ih =>
    rintro n hex
    simp only [uniqueSlugLoop]
    by_cases hn : exists_anywhere fs (candidateName base n) cfg = true
    · rw [if_pos hn]
      have hex' : ∃ m, n + 1 ≤ m ∧ m ≤ (n + 1) + fuel ∧
          exists_anywhere fs (candidateName base m) cfg = false := by
        obtain ⟨m, h1, h2, h3⟩ := hex
        have hmn : ¬ m = n := fun he => by
          rw [he, hn] at h3
          cases h3
        exact ⟨m, by omega, by omega, h3⟩
      obtain ⟨k, hk1, hk2, hk3, hk4⟩ := ih (n + 1) hex'
      refine ⟨k, by omega, hk2, hk3, fun j hj1 hj2 => ?_⟩
      rcases Nat.eq_or_lt_of_le hj1 with he | hlt
      · rw [← he]
        exact hn
      · exact hk4 j hlt hj2
    · rw [if_neg hn]
      have hfalse : exists_anywhere fs (candidateName base n) cfg = false := by
        cases hx : exists_anywhere fs (candidateName base n) cfg with
        | false => rfl
        | true => exact absurd hx hn
      exact ⟨n, Nat.le_refl n, rfl, hfalse, fun j h1 h2 => by omega⟩

/-- C2: `unique_slug` returns `base` when no task file `base + ".md"` exists
under any configured column folder; otherwise it returns `base-k` for the
least `k ≥ 2` whose candidate is free under every configured column folder.
Either way the returned id collides with no existing task file in any
configured column. -/
theorem unique_slug_base {fs : FS} {base : Str} {cfg : BoardConfig}
    (h : exists_anywhere fs base cfg = false) : unique_slug fs base cfg = base := by
  unfold unique_slug
  rw [h]
  simp

theorem unique_slug_spec {fs : FS} {base : Str} {cfg : BoardConfig}
    (h : exists_anywhere fs base cfg = true) :
    ∃ k, 2 ≤ k ∧ unique_slug fs base cfg = candidateName base k ∧
      exists_anywhere fs (candidateName base k) cfg = false ∧
      ∀ j, 2 ≤ j → j < k →
        exists_anywhere fs (candidateName base j) cfg = true := by
  unfold unique_slug
  rw [if_pos h]
  have hex : ∃ m, 2 ≤ m ∧ m ≤ 2 + (fs.files.length + 1) ∧
      exists_anywhere fs (candidateName base m) cfg = false := by
    obtain ⟨m, h1, h2, h3⟩ := exists_free_slug fs base cfg 2
    exact ⟨m, h1, by omega, h3⟩
  obtain ⟨k, hk1, hk2, hk3, hk4⟩ :=
    uniqueSlugLoop_spec fs base cfg (fs.files.length + 1) 2 hex
  exact ⟨k, hk1, hk2, hk3, hk4⟩

theorem unique_slug_free (fs : FS) (base : Str) (cfg : BoardConfig) :
    exists_anywhere fs (unique_slug fs base cfg) cfg = false := by
  cases hb : exists_anywhere fs base cfg with
  | false => rw [unique_slug_base hb, hb]
  | true =>
    obtain ⟨k, _, hk2, hk3, _⟩ := unique_slug_spec hb
    rw [hk2, hk3]

theorem C2_unique_slug (fs : FS) (base : Str) (cfg : BoardConfig) :
    (exists_anywhere fs base cfg = false → unique_slug fs base cfg = base)
    ∧ (exists_anywhere fs base cfg = true →
        ∃ k, 2 ≤ k ∧ unique_slug fs base cfg = candidateName base k ∧
          exists_anywhere fs (candidateName base k) cfg = false ∧
          ∀ j, 2 ≤ j → j < k →
            exists_anywhere fs (candidateName base j) cfg = true)
    ∧ exists_anywhere fs (unique_slug fs base cfg) cfg = false :=
  ⟨fun h => unique_slug_base h, fun h => unique_slug_spec h,
    unique_slug_free fs base cfg⟩

/-- The standard four-column board used by witnesses. -/
def cfgW : BoardConfig :=
  ⟨[⟨str "backlog", str "Backlog", none⟩, ⟨str "planned", str "Planned", none⟩,
    ⟨str "in_progress", str "In Progress", none⟩, ⟨str "done", str "Done", none⟩]⟩

/-- A board filesystem holding one task file for witnesses. -/
def fsW : FS :=
  ⟨[str "backlog", str "planned", str "in_progress", str "done"],
   [⟨str "backlog", str "fix-login-bug.md", write_task taskW⟩]⟩

theorem C2_unique_slug_witness :
    exists_anywhere fsW (unique_slug fsW (str "fix-login-bug") cfgW) cfgW = false ∧
    unique_slug fsW (str "other") cfgW = str "other" :=
  ⟨(C2_unique_slug fsW (str "fix-login-bug") cfgW).2.2,
   (C2_unique_slug fsW (str "other") cfgW).1 (by decide)⟩

/-! ## Lemmas: filesystem operations -/

theorem find?_filter_of_imp {α : Type} {p q : α → Bool} (l : List α)
    (h : ∀ x, p x = true → q x = true) :
    (l.filter q).find? p = l.find? p := by
  induction l with
  | nil => rfl
  | cons a l ih =>
    by_cases hq : q a
    · rw [List.filter_cons_of_pos hq]
      by_cases hp : p a
      · rw [List.find?_cons_of_pos _ hp, List.find?_cons_of_pos _ hp]
      · rw [List.find?_cons_of_neg _ hp, List.find?_cons_of_neg _ hp, ih]
    · rw [List.filter_cons_of_neg hq]
      have hp : ¬ p a = true := fun hpa => hq (h a hpa)
      rw [List.find?_cons_of_neg _ hp, ih]

theorem fileContent_removeFile_same (fs : FS) (f n : Str) :
    (fs.removeFile f n).fileContent f n = none := by
  unfold FS.removeFile FS.fileContent
  have hnone : (fs.files.filter
      (fun x => ¬ (x.folder == f && x.name == n))).find?
      (fun x => x.folder == f && x.name == n) = none := by
    rw [List.find?_eq_none]
    intro x hx
    have hq := List.of_mem_filter hx
    rw [decide_eq_true_eq] at hq
    exact hq
  rw [hnone]
  rfl

theorem fileContent_removeFile_other (fs : FS) {f n f' n' : Str}
    (h : ¬ (f = f' ∧ n = n')) :
    (fs.removeFile f n).fileContent f' n' = fs.fileContent f' n' := by
  unfold FS.removeFile FS.fileContent
  rw [find?_filter_of_imp]
  intro x hx
  rw [Bool.and_eq_true, beq_iff_eq, beq_iff_eq] at hx
  rw [decide_eq_true_eq]
  intro hcon
  rw [Bool.and_eq_true, beq_iff_eq, beq_iff_eq] at hcon
  exact h ⟨hcon.1.symm.trans hx.1, hcon.2.symm.trans hx.2⟩

theorem fileContent_writeFile_same (fs : FS) (f n c : Str) :
    (fs.writeFile f n c).fileContent f n = some c := by
  unfold FS.writeFile FS.fileContent
  rw [List.find?_cons_of_pos _ (by simp)]
  rfl

theorem fileContent_writeFile_other (fs : FS) {f n f' n' : Str} (c : Str)
    (h : ¬ (f = f' ∧ n = n')) :
    (fs.writeFile f n c).fileContent f' n' = fs.fileContent f' n' := by
  have hstep : (fs.writeFile f n c).fileContent f' n' =
      (fs.removeFile f n).fileContent f' n' := by
    unfold FS.writeFile FS.fileContent
    rw [List.find?_cons_of_neg]
    simp only [Bool.and_eq_true, beq_iff_eq, not_and]
    intro hf hn
    exact h ⟨hf, hn⟩
  rw [hstep]
  exact fileContent_removeFile_other fs h

/-! ## Lemmas: the parser emits well-formed fields -/

theorem parseLines_val_safe : ∀ (ls : List Str) (acc : List (Str × Str)),
    (∀ l ∈ ls, '\n' ∉ l) → (∀ kv ∈ acc, trim kv.2 = kv.2 ∧ '\n' ∉ kv.2) →
    ∀ kv ∈ (parseLines ls acc).1, trim kv.2 = kv.2 ∧ '\n' ∉ kv.2 := by
  intro ls
  induction ls with
  | nil => exact fun acc _ hacc => hacc
  | cons l ls ih =>
    intro acc hls hacc
    simp only [parseLines]
    by_cases hblank : trim l = []
    · rw [if_pos hblank]
      exact hacc
    · rw [if_neg hblank]
      cases hsp : splitOnce ':' l with
      | none =>
        exact ih acc (fun m hm => hls m (List.mem_cons_of_mem _ hm)) hacc
      | some kv0 =>
        obtain ⟨k, v⟩ := kv0
        refine ih (acc ++ [(trim k, trim v)])
          (fun m hm => hls m (List.mem_cons_of_mem _ hm)) ?_
        intro kv hkv
        rcases List.mem_append.mp hkv with hkv | hkv
        · exact hacc kv hkv
        · rw [List.mem_singleton] at hkv
          subst hkv
          refine ⟨trim_idem v, fun hnl => ?_⟩
          have hv := (splitOnce_mem hsp).2 '\n' (mem_trim _ hnl)
          exact hls l (List.mem_cons_self _ _) hv

theorem hdrGet_parse_safe {content k v : Str}
    (h : hdrGet (parseLines (lines content) []).1 k = some v) :
    trim v = v ∧ '\n' ∉ v := by
  obtain ⟨k', hkv⟩ := hdrGet_mem h
  exact parseLines_val_safe (lines content) []
    (fun l hl => not_nl_mem_lines hl) (by simp) (k', v) hkv

/-- Every folder-independent field of a parsed task is trimmed and
single-line, and every parsed tag is nonempty, trimmed, single-line and
comma-free. -/
theorem parse_task_safe (content stem folder : Str) :
    fieldSafe (parse_task content stem folder).creator ∧
    fieldSafe (parse_task content stem folder).assigned_to ∧
    fieldSafe (parse_task content stem folder).created_at ∧
    fieldSafe (parse_task content stem folder).updated_at ∧
    fieldSafe (parse_task content stem folder).title ∧
    ∀ tg ∈ (parse_task content stem folder).tags, tagSafe tg := by
  have hget : ∀ k : Str,
      fieldSafe ((hdrGet (parseLines (lines content) []).1 k).getD []) := by
    intro k
    cases hk : hdrGet (parseLines (lines content) []).1 k with
    | none => exact ⟨rfl, by simp⟩
    | some v => exact hdrGet_parse_safe hk
  refine ⟨hget _, hget _, hget _, hget _, hget _, ?_⟩
  show ∀ tg ∈ (match hdrGet (parseLines (lines content) []).1 (str "tags") with
    | some v => splitTags v
    | none => []), tagSafe tg
  cases hk : hdrGet (parseLines (lines content) []).1 (str "tags") with
  | none => simp
  | some v =>
    intro tg htg
    obtain ⟨hvtrim, hvnl⟩ := hdrGet_parse_safe hk
    unfold splitTags at htg
    rw [List.mem_filter] at htg
    obtain ⟨htg, hne⟩ := htg
    rcases List.mem_map.mp htg with ⟨p, hp, rfl⟩
    refine ⟨by simpa using hne, trim_idem p, ?_, ?_⟩
    · intro hnl
      exact hvnl (mem_of_mem_splitOnChar hp '\n' (mem_trim _ hnl))
    · intro hcm
      exact not_mem_of_mem_splitOnChar hp (mem_trim _ hcm)

/-- Lexicographic comparison of strings (used only to phrase
"strictly later timestamp"). -/
def strLtB : Str → Str → Bool
  | [], [] => false
  | [], _ :: _ => true
  | _ :: _, [] => false
  | a :: as, b :: bs => a < b || (a = b && strLtB as bs)

theorem colIdChar_toNat {c : Char} (h : isColIdChar c = true) :
    (97 ≤ c.toNat ∧ c.toNat ≤ 122) ∨ (48 ≤ c.toNat ∧ c.toNat ≤ 57) ∨
    c.toNat = 95 ∨ c.toNat = 45 := by
  simp only [isColIdChar, Bool.or_eq_true, Bool.and_eq_true, decide_eq_true_eq,
    beq_iff_eq] at h
  rcases h with ((h | h) | h) | h
  · left
    have h1 := char_le_iff.mp h.1
    have h2 := char_le_iff.mp h.2
    have e1 : ('a').toNat = 97 := rfl
    have e2 : ('z').toNat = 122 := rfl
    omega
  · right
    left
    have h1 := char_le_iff.mp h.1
    have h2 := char_le_iff.mp h.2
    have e1 : ('0').toNat = 48 := rfl
    have e2 : ('9').toNat = 57 := rfl
    omega
  · subst h
    decide
  · subst h
    decide

theorem rustIsWs_toNat {c : Char} (h : rustIsWs c = true) :
    c.toNat = 32 ∨ c.toNat = 9 ∨ c.toNat = 10 ∨ c.toNat = 11 ∨ c.toNat = 12 ∨
    c.toNat = 13 ∨ c.toNat = 133 ∨ c.toNat = 160 ∨ c.toNat = 5760 ∨
    (8192 ≤ c.toNat ∧ c.toNat ≤ 8202) ∨ c.toNat = 8232 ∨ c.toNat = 8233 ∨
    c.toNat = 8239 ∨ c.toNat = 8287 ∨ c.toNat = 12288 := by
  simp only [rustIsWs, Bool.or_eq_true, Bool.and_eq_true, decide_eq_true_eq] at h
  rcases h with ((((((((((((((h | h) | h) | h) | h) | h) | h) | h) | h) | h) | h) | h) | h) | h) | h)
  all_goals first
    | (subst h; decide)
    | omega

/-- Column-id characters are never Unicode whitespace. -/
theorem colIdChar_not_ws {c : Char} (hcol : isColIdChar c = true) :
    rustIsWs c = false := by
  cases hws : rustIsWs c with
  | false => rfl
  | true =>
    exfalso
    have h1 := colIdChar_toNat hcol
    have h2 := rustIsWs_toNat hws
    omega

/-- Column-id characters are never a newline. -/
theorem colIdChar_not_nl {c : Char} (hcol : isColIdChar c = true) : ¬ c = '\n' := by
  intro he
  subst he
  exact absurd hcol (by decide)

/-- A nonempty string of column-id characters is a safe header value. -/
theorem colId_fieldSafe {B : Str} (_hne : B ≠ [])
    (hid : ∀ c ∈ B, isColIdChar c = true) : fieldSafe B := by
  constructor
  · apply trim_eq_self_of
    · intro x hx
      exact colIdChar_not_ws (hid x (List.mem_of_mem_head? hx))
    · intro x hx
      obtain ⟨hxne, hxl⟩ := List.mem_getLast?_eq_getLast (Option.mem_def.mpr hx)
      exact colIdChar_not_ws (hid x (hxl ▸ List.getLast_mem hxne))
  · intro hmem
    exact colIdChar_not_nl (hid '\n' hmem) rfl

theorem find_task_path_spec {fs : FS} {id : Str} {cfg : BoardConfig} {folder : Str}
    (h : find_task_path fs id cfg = some folder) :
    fs.fileExists folder (id ++ str ".md") = true ∧
    cfg.columns.any (fun c => c.id == folder) = true := by
  unfold find_task_path at h
  cases hf : cfg.columns.find? (fun column => fs.fileExists column.id (id ++ str ".md")) with
  | none => rw [hf] at h; cases h
  | some col =>
    rw [hf] at h
    simp only [Option.map_some', Option.some.injEq] at h
    subst h
    refine ⟨?_, ?_⟩
    · have hp := List.find?_some hf
      simpa using hp
    · rw [List.any_eq_true]
      exact ⟨col, List.mem_of_find?_eq_some hf, by simp⟩

/-! ## Claims C4 and C3: move errors and move success -/

/-- C4: a move fails 400 (invalid folder) when the target is not a
configured column id, 404 (not found) when no configured folder contains
`id + ".md"`, and 409 (conflict) when the destination file already
exists — and in each case, conflict included, the filesystem is
completely unchanged. -/
theorem C4_move_errors (fs : FS) (idPart targetFolder now : Str) (cfg : BoardConfig) :
    (¬ cfg.columns.any (fun c => c.id == targetFolder) = true →
      move_task fs idPart targetFolder cfg now = (.err 400 (str "invalid folder"), fs))
    ∧ (cfg.columns.any (fun c => c.id == targetFolder) = true →
       find_task_path fs idPart cfg = none →
      move_task fs idPart targetFolder cfg now = (.err 404 (str "task not found"), fs))
    ∧ (∀ currentFolder, cfg.columns.any (fun c => c.id == targetFolder) = true →
       find_task_path fs idPart cfg = some currentFolder →
       fs.fileExists targetFolder (idPart ++ str ".md") = true →
      move_task fs idPart targetFolder cfg now =
        (.err 409 (str "target file exists"), fs)) := by
  refine ⟨?_, ?_, ?_⟩
  · intro h
    unfold move_task
    rw [if_pos h]
  · intro hcfg hfind
    unfold move_task
    rw [if_neg (not_not_intro hcfg), hfind]
  · intro currentFolder hcfg hfind hconf
    unfold move_task
    rw [if_neg (not_not_intro hcfg), hfind]
    dsimp only
    obtain ⟨hex, _⟩ := find_task_path_spec hfind
    unfold FS.fileExists at hex
    obtain ⟨content, hcontent⟩ := Option.isSome_iff_exists.mp hex
    rw [hcontent]
    dsimp only
    rw [if_pos hconf]

def fsConflictW : FS :=
  ⟨fsW.dirs, fsW.files ++ [⟨str "in_progress", str "fix-login-bug.md", str "stale"⟩]⟩

theorem C4_move_errors_witness :
    move_task fsW (str "fix-login-bug") (str "nope") cfgW (str "t") =
      (.err 400 (str "invalid folder"), fsW) ∧
    move_task fsW (str "ghost") (str "done") cfgW (str "t") =
      (.err 404 (str "task not found"), fsW) ∧
    move_task fsConflictW (str "fix-login-bug") (str "in_progress") cfgW (str "t") =
      (.err 409 (str "target file exists"), fsConflictW) :=
  ⟨(C4_move_errors fsW (str "fix-login-bug") (str "nope") (str "t") cfgW).1 (by decide),
   (C4_move_errors fsW (str "ghost") (str "done") (str "t") cfgW).2.1 (by decide) (by decide),
   (C4_move_errors fsConflictW (str "fix-login-bug") (str "in_progress") (str "t") cfgW).2.2
     (str "backlog") (by decide) (by decide) (by decide)⟩

/-- C3: a successful move of task `idPart` from its current configured
column `A` to configured column `B` removes `A/id.md`, creates `B/id.md`,
and the task decoded from the new file has `folder = B`, `status = B` and
`updated_at = now`; with a strictly increasing time source
(`old.updated_at < now` lexicographically) the new `updated_at` is
strictly later than the old one. -/
theorem C3_move_success (fs : FS) (idPart A B now content0 : Str) (cfg : BoardConfig)
    (hB : cfg.columns.any (fun c => c.id == B) = true)
    (hBne : B ≠ []) (hBid : ∀ c ∈ B, isColIdChar c = true)
    (hfind : find_task_path fs idPart cfg = some A)
    (hcontent : fs.fileContent A (idPart ++ str ".md") = some content0)
    (hfree : fs.fileExists B (idPart ++ str ".md") = false)
    (hnow : fieldSafe now) :
    (move_task fs idPart B cfg now).2.fileContent A (idPart ++ str ".md") = none ∧
    (∃ c2, (move_task fs idPart B cfg now).2.fileContent B (idPart ++ str ".md") =
        some c2 ∧
      (parse_task c2 (fileStem (idPart ++ str ".md")) B).folder = B ∧
      (parse_task c2 (fileStem (idPart ++ str ".md")) B).status = B ∧
      (parse_task c2 (fileStem (idPart ++ str ".md")) B).updated_at = now ∧
      (strLtB (parse_task content0 (fileStem (idPart ++ str ".md")) A).updated_at now
          = true →
        strLtB (parse_task content0 (fileStem (idPart ++ str ".md")) A).updated_at
          (parse_task c2 (fileStem (idPart ++ str ".md")) B).updated_at = true)) := by
  have hAB : ¬ A = B := by
    intro he
    subst he
    unfold FS.fileExists at hfree
    rw [hcontent] at hfree
    cases hfree
  have hkeyBA : ¬ (B = A ∧ (idPart ++ str ".md") = (idPart ++ str ".md")) :=
    fun hk => hAB hk.1.symm
  have hkeyAB : ¬ (A = B ∧ (idPart ++ str ".md") = (idPart ++ str ".md")) :=
    fun hk => hAB hk.1
  have hmove : move_task fs idPart B cfg now =
      (.ok 200 { parse_task content0 (fileStem (idPart ++ str ".md")) A with
          folder := B, status := B, updated_at := now },
        ((fs.removeFile A (idPart ++ str ".md")).writeFile B (idPart ++ str ".md")
            content0).writeFile B (idPart ++ str ".md")
          (write_task { parse_task content0 (fileStem (idPart ++ str ".md")) A with
            folder := B, status := B, updated_at := now })) := by
    unfold move_task
    rw [if_neg (not_not_intro hB), hfind]
    dsimp only
    rw [hcontent]
    dsimp only
    rw [if_neg (by simp [hfree])]
    unfold FS.renameFile
    rw [hcontent]
  rw [hmove]
  dsimp only
  constructor
  · rw [fileContent_writeFile_other _ _ hkeyBA,
      fileContent_writeFile_other _ _ hkeyBA,
      fileContent_removeFile_same]
  · refine ⟨_, fileContent_writeFile_same _ _ _ _, ?_⟩
    obtain ⟨hc, ha, hcr, hu, hti, htags⟩ :=
      parse_task_safe content0 (fileStem (idPart ++ str ".md")) A
    have hparse := parse_write_task
      { parse_task content0 (fileStem (idPart ++ str ".md")) A with
        folder := B, status := B, updated_at := now }
      (fileStem (idPart ++ str ".md")) B
      hc ha hcr hnow (colId_fieldSafe hBne hBid) hti htags
    rw [hparse]
    refine ⟨rfl, rfl, rfl, fun hlt => hlt⟩

theorem C3_move_success_witness :
    (move_task fsW (str "fix-login-bug") (str "in_progress") cfgW
        (str "2024-02-02T00:00:00Z")).2.fileContent
      (str "backlog") (str "fix-login-bug.md") = none :=
  (C3_move_success fsW (str "fix-login-bug") (str "backlog") (str "in_progress")
    (str "2024-02-02T00:00:00Z") (write_task taskW) cfgW
    (by decide) (by decide) (by decide) (by decide) (by decide) (by decide)
    (by decide)).1

/-! ## C5: update rename-first atomicity and partial-update semantics -/

/-- The task the update handler loads from disk (main.rs:944-948). -/
def loadedTask (idPart content0 folder : Str) : Task :=
  parse_task content0 (fileStem (idPart ++ str ".md")) folder

/-- The id a successful update ends with (main.rs:950-961): a fresh
board-wide-unique slug when the supplied title slugifies to something
different from the current id, the current id otherwise. -/
def updateNewId (fs : FS) (old : Task) (upd : UpdateReq) (cfg : BoardConfig) : Str :=
  match upd.title with
  | some ti => if slugify ti ≠ old.id then unique_slug fs (slugify ti) cfg else old.id
  | none => old.id

/-- The task record a successful update persists (main.rs:950-979). -/
def updatedTask (old : Task) (upd : UpdateReq) (newId now : Str) : Task :=
  { old with
    id := newId
    title := upd.title.getD old.title
    description := upd.description.getD old.description
    creator := upd.creator.getD old.creator
    assigned_to := upd.assigned_to.getD old.assigned_to
    tags := upd.tags.getD old.tags
    updated_at := now }

/-- C5: updating an existing task is rename-first: when the supplied title
slugifies to an id different from the current one and the rename fails, the
handler aborts with 500 and the filesystem is returned unchanged, so no
field edit is persisted.  When the rename (if any) succeeds, the response
task is exactly `updatedTask`: `updated_at` refreshed unconditionally,
title/description/creator/assigned_to/tags overwritten when supplied and
kept when absent, with the id given by `updateNewId`; the file persisted at
the new id is the encoding of that record; and a changed slug is fresh
board-wide: it exists in no configured column of the pre-update board. -/
theorem C5_update (fs : FS) (idPart folder now content0 : Str) (upd : UpdateReq)
    (cfg : BoardConfig)
    (hfind : find_task_path fs idPart cfg = some folder)
    (hcontent : fs.fileContent folder (idPart ++ str ".md") = some content0) :
    (∀ ti, upd.title = some ti →
      slugify ti ≠ (loadedTask idPart content0 folder).id →
      update_task fs idPart upd cfg now false = (.err 500 (str "rename failed"), fs))
    ∧ (update_task fs idPart upd cfg now true).1 =
        .ok 200 (updatedTask (loadedTask idPart content0 folder) upd
          (updateNewId fs (loadedTask idPart content0 folder) upd cfg) now)
    ∧ (update_task fs idPart upd cfg now true).2.fileContent folder
        (updateNewId fs (loadedTask idPart content0 folder) upd cfg ++ str ".md") =
        some (write_task (updatedTask (loadedTask idPart content0 folder) upd
          (updateNewId fs (loadedTask idPart content0 folder) upd cfg) now))
    ∧ (∀ old newId, (updatedTask old upd newId now).updated_at = now
        ∧ (updatedTask old upd newId now).title = upd.title.getD old.title
        ∧ (updatedTask old upd newId now).description =
            upd.description.getD old.description
        ∧ (updatedTask old upd newId now).creator = upd.creator.getD old.creator
        ∧ (updatedTask old upd newId now).assigned_to =
            upd.assigned_to.getD old.assigned_to
        ∧ (updatedTask old upd newId now).tags = upd.tags.getD old.tags)
    ∧ (∀ ti, upd.title = some ti →
        slugify ti ≠ (loadedTask idPart content0 folder).id →
        exists_anywhere fs
          (updateNewId fs (loadedTask idPart content0 folder) upd cfg) cfg
          = false) := by
  have hBC : (update_task fs idPart upd cfg now true).1 =
        .ok 200 (updatedTask (loadedTask idPart content0 folder) upd
          (updateNewId fs (loadedTask idPart content0 folder) upd cfg) now)
      ∧ (update_task fs idPart upd cfg now true).2.fileContent folder
          (updateNewId fs (loadedTask idPart content0 folder) upd cfg ++ str ".md") =
          some (write_task (updatedTask (loadedTask idPart content0 folder) upd
            (updateNewId fs (loadedTask idPart content0 folder) upd cfg) now)) := by
    cases hti : upd.title with
    | none =>
      have hres : update_task fs idPart upd cfg now true =
          applyUpdateEdits fs folder upd now (loadedTask idPart content0 folder) := by
        unfold update_task
        rw [hfind]
        dsimp only
        rw [hcontent]
        dsimp only
        rw [hti]
        rfl
      have hid : updateNewId fs (loadedTask idPart content0 folder) upd cfg =
          (loadedTask idPart content0 folder).id := by
        unfold updateNewId
        rw [hti]
      have hT : updatedTask (loadedTask idPart content0 folder) upd
          (updateNewId fs (loadedTask idPart content0 folder) upd cfg) now =
          { loadedTask idPart content0 folder with
            description := upd.description.getD (loadedTask idPart content0 folder).description
            creator := upd.creator.getD (loadedTask idPart content0 folder).creator
            assigned_to := upd.assigned_to.getD (loadedTask idPart content0 folder).assigned_to
            tags := upd.tags.getD (loadedTask idPart content0 folder).tags
            updated_at := now } := by
        unfold updatedTask
        rw [hid, hti]
        rfl
      constructor
      · rw [hres]
        unfold applyUpdateEdits
        dsimp only
        rw [hT]
      · rw [hres]
        unfold applyUpdateEdits
        dsimp only
        rw [hT, hid]
        exact fileContent_writeFile_same _ _ _ _
    | some ti =>
      by_cases hslug : slugify ti = (loadedTask idPart content0 folder).id
      · have hsl : slugify ti =
            (parse_task content0 (fileStem (idPart ++ str ".md")) folder).id := hslug
        have hres : update_task fs idPart upd cfg now true =
            applyUpdateEdits fs folder upd now
              { loadedTask idPart content0 folder with title := ti } := by
          unfold update_task
          rw [hfind]
          dsimp only
          rw [hcontent]
          dsimp only
          rw [hti]
          dsimp only
          rw [if_neg (not_not_intro hsl)]
          rfl
        have hid : updateNewId fs (loadedTask idPart content0 folder) upd cfg =
            (loadedTask idPart content0 folder).id := by
          unfold updateNewId
          rw [hti]
          dsimp only
          rw [if_neg (not_not_intro hslug)]
        have hT : updatedTask (loadedTask idPart content0 folder) upd
            (updateNewId fs (loadedTask idPart content0 folder) upd cfg) now =
            { loadedTask idPart content0 folder with
              title := ti
              description := upd.description.getD (loadedTask idPart content0 folder).description
              creator := upd.creator.getD (loadedTask idPart content0 folder).creator
              assigned_to := upd.assigned_to.getD (loadedTask idPart content0 folder).assigned_to
              tags := upd.tags.getD (loadedTask idPart content0 folder).tags
              updated_at := now } := by
          unfold updatedTask
          rw [hid, hti]
          rfl
        constructor
        · rw [hres]
          unfold applyUpdateEdits
          dsimp only
          rw [hT]
        · rw [hres]
          unfold applyUpdateEdits
          dsimp only
          rw [hT, hid]
          exact fileContent_writeFile_same _ _ _ _
      · have hsl : slugify ti ≠
            (parse_task content0 (fileStem (idPart ++ str ".md")) folder).id := hslug
        have hres : update_task fs idPart upd cfg now true =
            applyUpdateEdits
              (fs.renameFile folder (idPart ++ str ".md") folder
                (unique_slug fs (slugify ti) cfg ++ str ".md"))
              folder upd now
              { loadedTask idPart content0 folder with
                id := unique_slug fs (slugify ti) cfg, title := ti } := by
          unfold update_task
          rw [hfind]
          dsimp only
          rw [hcontent]
          dsimp only
          rw [hti]
          dsimp only
          rw [if_pos hsl, if_pos rfl]
          rfl
        have hid : updateNewId fs (loadedTask idPart content0 folder) upd cfg =
            unique_slug fs (slugify ti) cfg := by
          unfold updateNewId
          rw [hti]
          dsimp only
          rw [if_pos hslug]
        have hT : updatedTask (loadedTask idPart content0 folder) upd
            (updateNewId fs (loadedTask idPart content0 folder) upd cfg) now =
            { loadedTask idPart content0 folder with
              id := unique_slug fs (slugify ti) cfg
              title := ti
              description := upd.description.getD (loadedTask idPart content0 folder).description
              creator := upd.creator.getD (loadedTask idPart content0 folder).creator
              assigned_to := upd.assigned_to.getD (loadedTask idPart content0 folder).assigned_to
              tags := upd.tags.getD (loadedTask idPart content0 folder).tags
              updated_at := now } := by
          unfold updatedTask
          rw [hid, hti]
          rfl
        constructor
        · rw [hres]
          unfold applyUpdateEdits
          dsimp only
          rw [hT]
        · rw [hres]
          unfold applyUpdateEdits
          dsimp only
          rw [hT, hid]
          exact fileContent_writeFile_same _ _ _ _
  refine ⟨?_, hBC.1, hBC.2, ?_, ?_⟩
  · intro ti hti hne
    have hsl : slugify ti ≠
        (parse_task content0 (fileStem (idPart ++ str ".md")) folder).id := hne
    unfold update_task
    rw [hfind]
    dsimp only
    rw [hcontent]
    dsimp only
    rw [hti]
    dsimp only
    rw [if_pos hsl, if_neg (by simp : ¬ false = true)]
  · intro old newId
    exact ⟨rfl, rfl, rfl, rfl, rfl, rfl⟩
  · intro ti hti hne
    have hid : updateNewId fs (loadedTask idPart content0 folder) upd cfg =
        unique_slug fs (slugify ti) cfg := by
      unfold updateNewId
      rw [hti]
      dsimp only
      rw [if_pos hne]
    rw [hid]
    exact unique_slug_free fs (slugify ti) cfg

/-- Update request used by the C5 witness: new title and new creator,
everything else absent. -/
def updW : UpdateReq :=
  ⟨some (str "Fix signup bug"), none, some (str "zoe"), none, none⟩

theorem C5_update_witness :
    update_task fsW (str "fix-login-bug") updW cfgW (str "t") false =
      (.err 500 (str "rename failed"), fsW) ∧
    (update_task fsW (str "fix-login-bug") updW cfgW (str "t") true).1 =
      .ok 200 (updatedTask
        (loadedTask (str "fix-login-bug") (write_task taskW) (str "backlog")) updW
        (updateNewId fsW
          (loadedTask (str "fix-login-bug") (write_task taskW) (str "backlog"))
          updW cfgW) (str "t")) :=
  ⟨(C5_update fsW (str "fix-login-bug") (str "backlog") (str "t")
      (write_task taskW) updW cfgW (by decide) (by decide)).1
      (str "Fix signup bug") rfl (by decide),
   (C5_update fsW (str "fix-login-bug") (str "backlog") (str "t")
      (write_task taskW) updW cfgW (by decide) (by decide)).2.1⟩

/-! ## C7: auto-mode reconciliation never destroys task data -/

theorem foldl_createDirAll_files (l : List BoardColumn) (fs : FS) :
    (l.foldl (fun fs c => fs.createDirAll c.id) fs).files = fs.files := by
  induction l generalizing fs with
  | nil => rfl
  | cons c cs ih =>
    rw [List.foldl_cons, ih]
    unfold FS.createDirAll
    by_cases h : c.id ∈ fs.dirs
    · rw [if_pos h]
    · rw [if_neg h]

theorem ensure_folders_files (fs : FS) (cfg : BoardConfig) :
    (ensure_folders fs cfg).files = fs.files :=
  foldl_createDirAll_files cfg.columns fs

theorem dirHasTasks_removeDirAll {fs : FS} {d : Str} (d' : Str)
    (h : dirHasTasks fs d = false) :
    dirHasTasks (fs.removeDirAll d) d' = dirHasTasks fs d' := by
  unfold dirHasTasks at h ⊢
  unfold FS.removeDirAll
  dsimp only
  rw [List.any_eq_false] at h
  rw [Bool.eq_iff_iff]
  simp only [List.any_eq_true, List.mem_filter, decide_eq_true_eq]
  constructor
  · rintro ⟨f, ⟨hf, _⟩, hp⟩
    exact ⟨f, hf, hp⟩
  · rintro ⟨f, hf, hp⟩
    refine ⟨f, ⟨hf, ?_⟩, hp⟩
    intro hfd
    have hfalse := h f hf
    rw [hfd, Bool.true_and] at hfalse
    rw [Bool.and_eq_true] at hp
    rw [hp.2] at hfalse
    exact hfalse rfl

theorem mem_files_removeDirAll {fs : FS} {d : Str} {f : FSFile}
    (h : dirHasTasks fs d = false) (hf : f ∈ fs.files)
    (hmd : hasMdExt f.name = true) : f ∈ (fs.removeDirAll d).files := by
  unfold FS.removeDirAll
  dsimp only
  rw [List.mem_filter]
  refine ⟨hf, ?_⟩
  rw [decide_eq_true_eq]
  intro hfd
  unfold dirHasTasks at h
  rw [List.any_eq_false] at h
  have hfalse := h f hf
  rw [hfd, hmd] at hfalse
  exact hfalse rfl

theorem reconcileAutoGo_files_md (cfg : BoardConfig) (l : List Str) :
    ∀ (fs : FS) (f : FSFile), f ∈ fs.files → hasMdExt f.name = true →
      f ∈ (reconcileAutoGo cfg fs l).1.files := by
  induction l with
  | nil =>
    intro fs f hf _
    exact hf
  | cons d rest ih =>
    intro fs f hf hmd
    unfold reconcileAutoGo
    by_cases ho : isOrphan cfg d = true
    · rw [if_pos ho]
      cases ht : dirHasTasks fs d with
      | true =>
        rw [if_pos rfl]
        exact hf
      | false =>
        rw [if_neg Bool.false_ne_true]
        exact ih _ f (mem_files_removeDirAll ht hf hmd) hmd
    · rw [if_neg ho]
      exact ih fs f hf hmd

theorem reconcileAutoGo_err (cfg : BoardConfig) (l : List Str) :
    ∀ fs : FS, (reconcileAutoGo cfg fs l).2.isSome =
      l.any (fun d => isOrphan cfg d && dirHasTasks fs d) := by
  induction l with
  | nil =>
    intro fs
    rfl
  | cons d rest ih =>
    intro fs
    unfold reconcileAutoGo
    rw [List.any_cons]
    by_cases ho : isOrphan cfg d = true
    · rw [if_pos ho, ho, Bool.true_and]
      cases ht : dirHasTasks fs d with
      | true =>
        rw [if_pos rfl, Bool.true_or]
        rfl
      | false =>
        rw [if_neg Bool.false_ne_true, Bool.false_or, ih]
        congr 1
        funext d'
        rw [dirHasTasks_removeDirAll d' ht]
    · have hfalse : isOrphan cfg d = false := by
        cases hv : isOrphan cfg d
        · rfl
        · exact absurd hv ho
      rw [if_neg ho, hfalse, Bool.false_and, Bool.false_or, ih]

theorem reconcileAutoGo_dirs_subset (cfg : BoardConfig) (l : List Str) :
    ∀ (fs : FS) (x : Str), x ∈ (reconcileAutoGo cfg fs l).1.dirs → x ∈ fs.dirs := by
  induction l with
  | nil =>
    intro fs x hx
    exact hx
  | cons d rest ih =>
    intro fs x hx
    unfold reconcileAutoGo at hx
    by_cases ho : isOrphan cfg d = true
    · rw [if_pos ho] at hx
      cases ht : dirHasTasks fs d with
      | true =>
        rw [if_pos ht] at hx
        exact hx
      | false =>
        rw [if_neg (by rw [ht]; exact Bool.false_ne_true)] at hx
        have hsub := ih _ x hx
        unfold FS.removeDirAll at hsub
        exact List.mem_of_mem_filter hsub
    · rw [if_neg ho] at hx
      exact ih fs x hx

theorem reconcileAutoGo_removes (cfg : BoardConfig) (l : List Str) :
    ∀ (fs : FS) (d : Str), (reconcileAutoGo cfg fs l).2 = none → d ∈ l →
      isOrphan cfg d = true → d ∉ (reconcileAutoGo cfg fs l).1.dirs := by
  induction l with
  | nil =>
    intro fs d _ hd
    cases hd
  | cons a rest ih =>
    intro fs d hnone hd ho
    unfold reconcileAutoGo at hnone ⊢
    by_cases hoa : isOrphan cfg a = true
    · rw [if_pos hoa] at hnone ⊢
      cases ht : dirHasTasks fs a with
      | true =>
        rw [if_pos ht] at hnone
        exact Option.noConfusion hnone
      | false =>
        rw [if_neg (by rw [ht]; exact Bool.false_ne_true)] at hnone
        rw [if_neg Bool.false_ne_true]
        rcases List.mem_cons.mp hd with rfl | hdrest
        · intro hmem
          have hsub := reconcileAutoGo_dirs_subset cfg rest _ d hmem
          unfold FS.removeDirAll at hsub
          have h2 := (List.mem_filter.mp hsub).2
          simp at h2
        · exact ih _ d hnone hdrest ho
    · rw [if_neg hoa] at hnone ⊢
      rcases List.mem_cons.mp hd with rfl | hdrest
      · exact absurd ho hoa
      · exact ih fs d hnone hdrest ho

/-- C7: auto-mode reconciliation preserves every `.md` task file of the
board, error or not; it stops with the unresolved-orphan error exactly
when some scanned directory other than `.git` is not a configured column
and still holds a `.md` task file; and on a clean run every such orphan
directory (necessarily task-free) has been deleted. -/
theorem C7_reconcile_auto (fs : FS) (cfg : BoardConfig) :
    (∀ f ∈ fs.files, hasMdExt f.name = true →
        f ∈ (reconcile_folders_auto fs cfg).1.files)
    ∧ (reconcile_folders_auto fs cfg).2.isSome =
        (ensure_folders fs cfg).dirs.any (fun d =>
          isOrphan cfg d && dirHasTasks (ensure_folders fs cfg) d)
    ∧ ((reconcile_folders_auto fs cfg).2 = none →
        ∀ d ∈ (ensure_folders fs cfg).dirs, isOrphan cfg d = true →
          d ∉ (reconcile_folders_auto fs cfg).1.dirs) := by
  refine ⟨?_, ?_, ?_⟩
  · intro f hf hmd
    unfold reconcile_folders_auto
    dsimp only
    apply reconcileAutoGo_files_md
    · rw [ensure_folders_files]
      exact hf
    · exact hmd
  · unfold reconcile_folders_auto
    dsimp only
    exact reconcileAutoGo_err cfg (ensure_folders fs cfg).dirs (ensure_folders fs cfg)
  · intro hnone d hd ho
    unfold reconcile_folders_auto at hnone ⊢
    dsimp only at hnone ⊢
    exact reconcileAutoGo_removes cfg (ensure_folders fs cfg).dirs
      (ensure_folders fs cfg) d hnone hd ho

/-- Board with one orphan directory holding only a non-task file, used by
the C7 witness. -/
def fsO : FS :=
  ⟨[str "backlog", str "planned", str "in_progress", str "done", str "scratch"],
   [⟨str "scratch", str "notes.txt", str "x"⟩,
    ⟨str "backlog", str "fix-login-bug.md", write_task taskW⟩]⟩

theorem C7_reconcile_auto_witness :
    (⟨str "backlog", str "fix-login-bug.md", write_task taskW⟩ : FSFile) ∈
      (reconcile_folders_auto fsO cfgW).1.files ∧
    str "scratch" ∉ (reconcile_folders_auto fsO cfgW).1.dirs :=
  ⟨(C7_reconcile_auto fsO cfgW).1 ⟨str "backlog", str "fix-login-bug.md",
      write_task taskW⟩ (by simp [fsO]) (by decide),
   (C7_reconcile_auto fsO cfgW).2.2 (by decide) (str "scratch") (by decide)
     (by decide)⟩

/-! ## C10: the key set of `load_all_tasks` -/

theorem lookupAL_insert_same (m : List (Str × List Task)) (k : Str) (v : List Task) :
    lookupAL (insertAL m k v) k = some v := by
  unfold insertAL lookupAL
  rw [List.find?_cons_of_pos _ (by simp)]
  rfl

theorem lookupAL_insert_other (m : List (Str × List Task)) (k : Str) (v : List Task)
    {kk : Str} (h : ¬ kk = k) :
    lookupAL (insertAL m k v) kk = lookupAL m kk := by
  unfold insertAL lookupAL
  rw [List.find?_cons_of_neg _ (by simpa using fun he => h he.symm)]
  rw [find?_filter_of_imp]
  intro x hx
  rw [decide_eq_true_eq]
  intro hxk
  have h1 := eq_of_beq hx
  have h2 := eq_of_beq hxk
  exact h (h1.symm.trans h2)

theorem load_all_foldl_lookup (fs : FS) (l : List BoardColumn) :
    ∀ (init : List (Str × List Task)) (k : Str),
      lookupAL (l.foldl (fun out c => insertAL out c.id (scanColumn fs c.id)) init) k =
        if k ∈ l.map (fun c => c.id) then some (scanColumn fs k)
        else lookupAL init k := by
  induction l with
  | nil =>
    intro init k
    rw [List.foldl_nil, List.map_nil]
    rw [if_neg (List.not_mem_nil k)]
  | cons c cs ih =>
    intro init k
    rw [List.foldl_cons, ih, List.map_cons]
    by_cases hcs : k ∈ cs.map (fun c => c.id)
    · rw [if_pos hcs, if_pos (List.mem_cons_of_mem _ hcs)]
    · rw [if_neg hcs]
      by_cases hk : k = c.id
      · subst hk
        rw [lookupAL_insert_same, if_pos (List.mem_cons_self _ _)]
      · rw [lookupAL_insert_other _ _ _ hk]
        rw [if_neg (fun hmem => by
          rcases List.mem_cons.mp hmem with he | hm
          · exact hk he
          · exact hcs hm)]

/-- C10: a successful `load_all_tasks` binds exactly the configured column
ids: every configured id maps to the scan of its directory, every other
key is absent; a configured column whose directory is missing or holds no
`.md` file is still bound, to the empty list. -/
theorem C10_load_all_tasks (fs : FS) (cfg : BoardConfig) :
    (∀ k, k ∈ cfg.columns.map (fun c => c.id) →
        lookupAL (load_all_tasks fs cfg) k = some (scanColumn fs k))
    ∧ (∀ k, k ∉ cfg.columns.map (fun c => c.id) →
        lookupAL (load_all_tasks fs cfg) k = none)
    ∧ (∀ k, (lookupAL (load_all_tasks fs cfg) k).isSome = true ↔
        k ∈ cfg.columns.map (fun c => c.id))
    ∧ (∀ k, k ∈ cfg.columns.map (fun c => c.id) →
        (k ∉ fs.dirs ∨ ∀ f ∈ fs.files, (f.folder == k && hasMdExt f.name) = false) →
        lookupAL (load_all_tasks fs cfg) k = some []) := by
  have hmain : ∀ k, lookupAL (load_all_tasks fs cfg) k =
      if k ∈ cfg.columns.map (fun c => c.id) then some (scanColumn fs k)
      else none := by
    intro k
    unfold load_all_tasks
    rw [load_all_foldl_lookup]
    by_cases hmem : k ∈ cfg.columns.map (fun c => c.id)
    · rw [if_pos hmem, if_pos hmem]
    · rw [if_neg hmem, if_neg hmem]
      rfl
  refine ⟨?_, ?_, ?_, ?_⟩
  · intro k hk
    rw [hmain k, if_pos hk]
  · intro k hk
    rw [hmain k, if_neg hk]
  · intro k
    constructor
    · intro h
      by_cases hmem : k ∈ cfg.columns.map (fun c => c.id)
      · exact hmem
      · rw [hmain k, if_neg hmem] at h
        cases h
    · intro hmem
      rw [hmain k, if_pos hmem]
      rfl
  · intro k hk hempty
    rw [hmain k, if_pos hk]
    have hscan : scanColumn fs k = [] := by
      unfold scanColumn
      rcases hempty with hdir | hfiles
      · rw [if_neg hdir]
      · by_cases hdir : k ∈ fs.dirs
        · rw [if_pos hdir]
          have hfilter : fs.files.filter
              (fun f => f.folder == k && hasMdExt f.name) = [] := by
            rw [List.filter_eq_nil_iff]
            intro f hf
            rw [hfiles f hf]
            exact Bool.false_ne_true
          rw [hfilter, List.map_nil]
        · rw [if_neg hdir]
    rw [hscan]

theorem C10_load_all_tasks_witness :
    lookupAL (load_all_tasks fsW cfgW) (str "planned") = some [] ∧
    lookupAL (load_all_tasks fsW cfgW) (str "nope") = none :=
  ⟨(C10_load_all_tasks fsW cfgW).2.2.2 (str "planned") (by decide) (by decide),
   (C10_load_all_tasks fsW cfgW).2.1 (str "nope") (by decide)⟩

/-! ## C8: invalid ids are rejected before any filesystem access -/

/-- C8: when the id segment of a `/api/tasks/{id}` or
`/api/tasks/{id}/move` request fails `is_valid_id`, the dispatcher answers
400 "invalid id" and hands back the filesystem untouched, for every
method, request body and `refresh_config` behaviour — the outcome never
consults the configuration or the board contents. -/
theorem C8_invalid_id (fs : FS) (suffix : Str) (method : Method)
    (refresh : FS → Except Str BoardConfig × FS)
    (moveBody : Option Str) (updateBody : Option UpdateReq) (now : Str)
    (renameOk : Bool)
    (h : is_valid_id ((splitOnChar '/' suffix).headD []) = false) :
    handle_task_route fs suffix method refresh moveBody updateBody now renameOk =
      (.err 400 (str "invalid id"), fs) := by
  unfold handle_task_route
  dsimp only
  rw [if_pos (by rw [h]; exact Bool.false_ne_true)]

theorem C8_invalid_id_witness :
    handle_task_route fsW (str "Bad!") Method.put (fun f => (Except.ok cfgW, f))
      none none (str "t") true = (.err 400 (str "invalid id"), fsW) :=
  C8_invalid_id fsW (str "Bad!") Method.put (fun f => (Except.ok cfgW, f))
    none none (str "t") true (by decide)

/-! ## C6: lemmas on `startsWith`, `splitOnceStr` and substring search -/

theorem startsWith_nil (s : Str) : startsWith s [] = true := by
  cases s <;> rfl

theorem startsWith_append_self (p b : Str) : startsWith (p ++ b) p = true := by
  induction p with
  | nil => cases b <;> rfl
  | cons x xs ih =>
    rw [List.cons_append]
    unfold startsWith
    simp [ih]

theorem startsWith_append_of_le : ∀ (pat u v : Str), pat.length ≤ u.length →
    startsWith (u ++ v) pat = startsWith u pat
  | [], u, v, _ => by rw [startsWith_nil, startsWith_nil]
  | p :: ps, [], v, h => by simp at h
  | p :: ps, x :: xs, v, h => by
    rw [List.cons_append]
    unfold startsWith
    rw [startsWith_append_of_le ps xs v (by simpa using Nat.le_of_succ_le_succ h)]

theorem startsWith_getElem {s pat : Str} (h : startsWith s pat = true) :
    ∀ j, j < pat.length → s[j]? = pat[j]? := by
  induction pat generalizing s with
  | nil =>
    intro j hj
    simp at hj
  | cons y ys ih =>
    cases s with
    | nil => exact absurd h Bool.false_ne_true
    | cons x xs =>
      unfold startsWith at h
      rw [Bool.and_eq_true, decide_eq_true_eq] at h
      obtain ⟨hxy, hrest⟩ := h
      intro j hj
      cases j with
      | zero => simp [hxy]
      | succ j2 =>
        simp only [List.getElem?_cons_succ]
        exact ih hrest j2 (by simpa using Nat.lt_of_succ_lt_succ hj)

theorem containsSub_of_startsWith_drop {pat : Str} :
    ∀ (s : Str) (i : Nat), startsWith (s.drop i) pat = true →
      containsSub pat s = true := by
  intro s
  induction s with
  | nil =>
    intro i h
    rw [List.drop_nil] at h
    cases pat with
    | nil => rfl
    | cons y ys => exact absurd h Bool.false_ne_true
  | cons x xs ih =>
    intro i h
    cases i with
    | zero =>
      rw [List.drop_zero] at h
      unfold containsSub splitOnceStr
      rw [if_pos h]
      rfl
    | succ i2 =>
      rw [List.drop_succ_cons] at h
      have hxs := ih i2 h
      unfold containsSub splitOnceStr
      by_cases hs : startsWith (x :: xs) pat = true
      · rw [if_pos hs]
        rfl
      · rw [if_neg hs]
        unfold containsSub at hxs
        cases hsp : splitOnceStr pat xs with
        | none =>
          rw [hsp] at hxs
          exact absurd hxs Bool.false_ne_true
        | some p => rfl

theorem splitOnceStr_exact {pat b : Str} (hpat : pat ≠ []) :
    ∀ a : Str, (∀ i, i < a.length →
        startsWith ((a ++ (pat ++ b)).drop i) pat = false) →
      splitOnceStr pat (a ++ (pat ++ b)) = some (a, b) := by
  intro a
  induction a with
  | nil =>
    intro _
    rw [List.nil_append]
    cases hp : pat with
    | nil => exact absurd hp hpat
    | cons p ps =>
      subst hp
      rw [List.cons_append]
      unfold splitOnceStr
      rw [if_pos (by
        rw [← List.cons_append]
        exact startsWith_append_self (p :: ps) b)]
      rw [← List.cons_append, List.drop_left]
  | cons x a2 ih =>
    intro h
    have hne : ¬ startsWith (x :: (a2 ++ (pat ++ b))) pat = true := by
      have h0 := h 0 (by simp)
      rw [List.drop_zero, List.cons_append] at h0
      rw [h0]
      exact Bool.false_ne_true
    have hrec : ∀ i, i < a2.length →
        startsWith ((a2 ++ (pat ++ b)).drop i) pat = false := by
      intro i hi
      have h1 := h (i + 1) (by simp only [List.length_cons]; omega)
      rwa [List.cons_append, List.drop_succ_cons] at h1
    rw [List.cons_append]
    unfold splitOnceStr
    rw [if_neg hne]
    rw [ih hrec]
    rfl

theorem no_early_wip {title : Str} (b : Str)
    (hnw : containsSub (str "wip=") title = false) :
    ∀ i, i < (title ++ [' ']).length →
      startsWith (((title ++ [' ']) ++ (str "wip=" ++ b)).drop i) (str "wip=")
        = false := by
  intro i hi
  by_contra hcon
  have hpos : startsWith (((title ++ [' ']) ++ (str "wip=" ++ b)).drop i)
      (str "wip=") = true := by
    cases hv : startsWith (((title ++ [' ']) ++ (str "wip=" ++ b)).drop i)
        (str "wip=")
    · exact absurd hv hcon
    · rfl
  have hlen4 : (str "wip=").length = 4 := rfl
  have hilen : i < title.length + 1 := by
    simpa using hi
  by_cases hcase : i + 4 ≤ title.length
  · have hdropeq : ((title ++ [' ']) ++ (str "wip=" ++ b)).drop i =
        title.drop i ++ ([' '] ++ (str "wip=" ++ b)) := by
      rw [List.append_assoc, List.drop_append_eq_append_drop,
        Nat.sub_eq_zero_of_le (by omega), List.drop_zero]
    rw [hdropeq] at hpos
    rw [startsWith_append_of_le _ _ _ (by rw [hlen4, List.length_drop]; omega)]
      at hpos
    have hc := containsSub_of_startsWith_drop title i hpos
    rw [hnw] at hc
    exact Bool.false_ne_true hc
  · have hchar := startsWith_getElem hpos (title.length - i)
      (by rw [hlen4]; omega)
    rw [List.getElem?_drop] at hchar
    have hidx : i + (title.length - i) = title.length := by omega
    rw [hidx] at hchar
    have hsp : ((title ++ [' ']) ++ (str "wip=" ++ b))[title.length]? =
        some ' ' := by
      rw [List.getElem?_append, if_pos (by simp)]
      rw [List.getElem?_append, if_neg (by omega)]
      rw [Nat.sub_self]
      rfl
    rw [hsp] at hchar
    have hmem : (' ' : Char) ∈ str "wip=" := List.getElem?_mem hchar.symm
    exact absurd hmem (by decide)

theorem splitOnceStr_none_of_not_contains {pat s : Str}
    (h : containsSub pat s = false) : splitOnceStr pat s = none := by
  unfold containsSub at h
  cases hsp : splitOnceStr pat s with
  | none => rfl
  | some p =>
    rw [hsp] at h
    exact absurd h (by simp)

theorem digit_not_ws {c : Char} (h : isAsciiDigit c = true) :
    rustIsWs c = false := by
  have hcol : isColIdChar c = true := by
    unfold isAsciiDigit at h
    unfold isColIdChar
    rw [h]
    simp
  exact colIdChar_not_ws hcol

theorem digit_not_nl {c : Char} (h : isAsciiDigit c = true) : ¬ c = '\n' := by
  intro he
  subst he
  exact absurd h (by decide)

theorem head_not_ws_of_trim {t : Str} (ht : trim t = t) :
    ∀ y ∈ t.head?, rustIsWs y = false := by
  rw [← (trim_eq_self_decomp ht).1]
  exact ltrim_head_not_ws

theorem getLast_not_ws_of_trim {t : Str} (ht : trim t = t) :
    ∀ y ∈ t.getLast?, rustIsWs y = false := by
  rw [← (trim_eq_self_decomp ht).2]
  exact rtrim_getLast_not_ws

theorem natToStr_trim (v : Nat) : trim (natToStr v) = natToStr v := by
  have hall : ∀ y ∈ natToStr v, isAsciiDigit y = true := fun y hy =>
    List.all_eq_true.mp (natToStrFuel_all_digits v v (Nat.le_refl v)) y hy
  apply trim_eq_self_of
  · intro y hy
    exact digit_not_ws (hall y (List.mem_of_mem_head? hy))
  · intro y hy
    obtain ⟨hyne, hyl⟩ := List.mem_getLast?_eq_getLast (Option.mem_def.mpr hy)
    exact digit_not_ws (hall y (hyl ▸ List.getLast_mem hyne))

theorem firstToken_natToStr (v : Nat) : firstToken (natToStr v) = natToStr v := by
  have hall : ∀ y ∈ natToStr v, isAsciiDigit y = true := fun y hy =>
    List.all_eq_true.mp (natToStrFuel_all_digits v v (Nat.le_refl v)) y hy
  unfold firstToken
  rw [(trim_eq_self_decomp (natToStr_trim v)).1]
  apply List.takeWhile_eq_self_iff.mpr
  intro y hy
  simp [digit_not_ws (hall y hy)]

theorem head_append_of_ne_nil {l1 : Str} (l2 : Str) (h : l1 ≠ []) :
    (l1 ++ l2).head? = l1.head? := by
  cases l1 with
  | nil => exact absurd rfl h
  | cons a as => rfl

/-- A serialized plain config line parses back to its column
(`parse_config_line` on `id: title`). -/
theorem parse_config_line_plain (cid ctitle : Str)
    (hid : cid ≠ []) (hidc : cid.all isColIdChar = true)
    (ht : trim ctitle = ctitle) (htne : ctitle ≠ [])
    (hnw : containsSub (str "wip=") ctitle = false) :
    parse_config_line (cid ++ str ": " ++ ctitle) =
      some ⟨cid, ctitle, none⟩ := by
  obtain ⟨x, xs, rfl⟩ : ∃ x xs, cid = x :: xs := by
    cases cid with
    | nil => exact absurd rfl hid
    | cons x xs => exact ⟨x, xs, rfl⟩
  have hidchar : ∀ y ∈ x :: xs, isColIdChar y = true := fun y hy =>
    List.all_eq_true.mp hidc y hy
  have htrimid : trim (x :: xs) = x :: xs :=
    (colId_fieldSafe (by simp) hidchar).1
  have hbodyhead : ∀ y ∈ (((x :: xs) ++ str ": ") ++ ctitle).head?,
      rustIsWs y = false := by
    intro y hy
    have hyx : y = x := by
      simp only [List.cons_append, List.head?_cons, Option.mem_def,
        Option.some.injEq] at hy
      exact hy.symm
    subst hyx
    exact colIdChar_not_ws (hidchar y (List.mem_cons_self y xs))
  have hbodylast : ∀ y ∈ (((x :: xs) ++ str ": ") ++ ctitle).getLast?,
      rustIsWs y = false := by
    rw [List.getLast?_append_of_ne_nil _ htne]
    exact getLast_not_ws_of_trim ht
  have htrim : trim (((x :: xs) ++ str ": ") ++ ctitle) =
      ((x :: xs) ++ str ": ") ++ ctitle :=
    trim_eq_self_of hbodyhead hbodylast
  have hhash : ¬ ((((x :: xs) ++ str ": ") ++ ctitle).headD ' ' = '#') := by
    intro he
    have hx : isColIdChar x = true := hidchar x (List.mem_cons_self x xs)
    have hxe : x = '#' := he
    rw [hxe] at hx
    exact absurd hx (by decide)
  have hcolon : (':' : Char) ∉ x :: xs := by
    intro hm
    exact absurd (hidchar ':' hm) (by decide)
  have hsplit : splitOnce ':' (((x :: xs) ++ str ": ") ++ ctitle) =
      some (x :: xs, ' ' :: ctitle) := by
    rw [List.append_assoc]
    exact splitOnce_append hcolon (' ' :: ctitle)
  unfold parse_config_line
  dsimp only
  rw [htrim]
  rw [if_neg (by simp)]
  rw [if_neg hhash]
  rw [hsplit]
  dsimp only
  rw [htrimid, trim_cons_ws (by decide) ctitle, ht]
  rw [if_neg (by simp)]
  rw [if_neg (not_not_intro hidc)]
  rw [splitOnceStr_none_of_not_contains hnw]
  dsimp only
  rw [if_neg htne]

/-- A serialized wip-annotated config line parses back to its column
(`parse_config_line` on `id: title wip=<v>`). -/
theorem parse_config_line_wip (cid ctitle : Str) (v : Nat)
    (hid : cid ≠ []) (hidc : cid.all isColIdChar = true)
    (ht : trim ctitle = ctitle) (htne : ctitle ≠ [])
    (hnw : containsSub (str "wip=") ctitle = false)
    (hvpos : 0 < v) (hv32 : v < 2 ^ 32) :
    parse_config_line (cid ++ str ": " ++ ctitle ++ str " wip=" ++ natToStr v) =
      some ⟨cid, ctitle, some v⟩ := by
  obtain ⟨x, xs, rfl⟩ : ∃ x xs, cid = x :: xs := by
    cases cid with
    | nil => exact absurd rfl hid
    | cons x xs => exact ⟨x, xs, rfl⟩
  have hidchar : ∀ y ∈ x :: xs, isColIdChar y = true := fun y hy =>
    List.all_eq_true.mp hidc y hy
  have htrimid : trim (x :: xs) = x :: xs :=
    (colId_fieldSafe (by simp) hidchar).1
  have hnatne : natToStr v ≠ [] := natToStrFuel_ne_nil v v
  have hnatall : ∀ y ∈ natToStr v, isAsciiDigit y = true := fun y hy =>
    List.all_eq_true.mp (natToStrFuel_all_digits v v (Nat.le_refl v)) y hy
  have hbodyhead : ∀ y ∈
      (((((x :: xs) ++ str ": ") ++ ctitle) ++ str " wip=") ++ natToStr v).head?,
      rustIsWs y = false := by
    intro y hy
    have hyx : y = x := by
      simp only [List.cons_append, List.head?_cons, Option.mem_def,
        Option.some.injEq] at hy
      exact hy.symm
    subst hyx
    exact colIdChar_not_ws (hidchar y (List.mem_cons_self y xs))
  have hbodylast : ∀ y ∈
      (((((x :: xs) ++ str ": ") ++ ctitle) ++ str " wip=") ++ natToStr v).getLast?,
      rustIsWs y = false := by
    rw [List.getLast?_append_of_ne_nil _ hnatne]
    intro y hy
    obtain ⟨hyne, hyl⟩ := List.mem_getLast?_eq_getLast (Option.mem_def.mpr hy)
    exact digit_not_ws (hnatall y (hyl ▸ List.getLast_mem hyne))
  have htrim : trim
      (((((x :: xs) ++ str ": ") ++ ctitle) ++ str " wip=") ++ natToStr v) =
      ((((x :: xs) ++ str ": ") ++ ctitle) ++ str " wip=") ++ natToStr v :=
    trim_eq_self_of hbodyhead hbodylast
  have hhash : ¬ (((((((x :: xs) ++ str ": ") ++ ctitle) ++ str " wip=") ++
      natToStr v)).headD ' ' = '#') := by
    intro he
    have hx : isColIdChar x = true := hidchar x (List.mem_cons_self x xs)
    have hxe : x = '#' := he
    rw [hxe] at hx
    exact absurd hx (by decide)
  have hcolon : (':' : Char) ∉ x :: xs := by
    intro hm
    exact absurd (hidchar ':' hm) (by decide)
  have hsplit : splitOnce ':'
      (((((x :: xs) ++ str ": ") ++ ctitle) ++ str " wip=") ++ natToStr v) =
      some (x :: xs, ' ' :: (ctitle ++ (str " wip=" ++ natToStr v))) := by
    rw [List.append_assoc, List.append_assoc, List.append_assoc]
    exact splitOnce_append hcolon (' ' :: (ctitle ++ (str " wip=" ++ natToStr v)))
  have hu : ctitle ++ (str " wip=" ++ natToStr v) =
      (ctitle ++ [' ']) ++ (str "wip=" ++ natToStr v) := by
    rw [List.append_assoc]
    rfl
  have htitlehead : ∀ y ∈ ctitle.head?, rustIsWs y = false :=
    head_not_ws_of_trim ht
  have htrimu : trim (ctitle ++ (str " wip=" ++ natToStr v)) =
      ctitle ++ (str " wip=" ++ natToStr v) := by
    apply trim_eq_self_of
    · rw [head_append_of_ne_nil _ htne]
      exact htitlehead
    · rw [List.getLast?_append_of_ne_nil _ (fun hnil =>
        hnatne (List.append_eq_nil.mp hnil).2)]
      rw [List.getLast?_append_of_ne_nil _ hnatne]
      intro y hy
      obtain ⟨hyne, hyl⟩ := List.mem_getLast?_eq_getLast (Option.mem_def.mpr hy)
      exact digit_not_ws (hnatall y (hyl ▸ List.getLast_mem hyne))
  have hsos : splitOnceStr (str "wip=") (ctitle ++ (str " wip=" ++ natToStr v)) =
      some (ctitle ++ [' '], natToStr v) := by
    rw [hu]
    exact splitOnceStr_exact (by decide) (ctitle ++ [' '])
      (no_early_wip (natToStr v) hnw)
  have hbase : trim (ctitle ++ [' ']) = ctitle := by
    unfold trim
    rw [ltrim_eq_self_iff.mpr (by
      rw [head_append_of_ne_nil _ htne]
      exact htitlehead)]
    rw [rtrim_append_ws (by decide)]
    exact (trim_eq_self_decomp ht).2
  unfold parse_config_line
  dsimp only
  rw [htrim]
  rw [if_neg (by simp)]
  rw [if_neg hhash]
  rw [hsplit]
  dsimp only
  rw [htrimid, trim_cons_ws (by decide), htrimu]
  rw [if_neg (by simp)]
  rw [if_neg (not_not_intro hidc)]
  rw [hsos]
  dsimp only
  rw [natToStr_trim, firstToken_natToStr, parseU32_natToStr hv32]
  dsimp only
  rw [if_pos hvpos, hbase]
  rw [if_neg htne]

/-- A column a well-formed board serializes to one line that parses back
to the column itself. -/
theorem configLine_parses (c : BoardColumn)
    (hid : c.id ≠ []) (hidc : c.id.all isColIdChar = true)
    (ht : trim c.title = c.title) (htne : c.title ≠ [])
    (hnl : '\n' ∉ c.title)
    (hnw : containsSub (str "wip=") c.title = false)
    (hwip : ∀ v, c.wip_limit = some v → 0 < v ∧ v < 2 ^ 32) :
    ∃ body, configLine c = body ++ ['\n'] ∧ '\n' ∉ body ∧
      stripCR body = body ∧ parse_config_line body = some c := by
  obtain ⟨cid, ctitle, cwip⟩ := c
  dsimp only at hid hidc ht htne hnl hnw hwip
  have hidchar : ∀ y ∈ cid, isColIdChar y = true := fun y hy =>
    List.all_eq_true.mp hidc y hy
  cases cwip with
  | none =>
    refine ⟨cid ++ str ": " ++ ctitle, ?_, ?_, ?_, ?_⟩
    · rfl
    · intro hm
      rcases List.mem_append.mp hm with hm1 | hm2
      · rcases List.mem_append.mp hm1 with hma | hmb
        · exact colIdChar_not_nl (hidchar '\n' hma) rfl
        · simp [str] at hmb
      · exact hnl hm2
    · apply stripCR_eq_self
      rw [List.getLast?_append_of_ne_nil _ htne]
      intro hcr
      have := getLast_not_ws_of_trim ht '\r' (Option.mem_def.mpr hcr)
      exact absurd this (by decide)
    · exact parse_config_line_plain cid ctitle hid hidc ht htne hnw
  | some v =>
    obtain ⟨hvpos, hv32⟩ := hwip v rfl
    have hnatne : natToStr v ≠ [] := natToStrFuel_ne_nil v v
    have hnatall : ∀ y ∈ natToStr v, isAsciiDigit y = true := fun y hy =>
      List.all_eq_true.mp (natToStrFuel_all_digits v v (Nat.le_refl v)) y hy
    refine ⟨cid ++ str ": " ++ ctitle ++ str " wip=" ++ natToStr v, ?_, ?_, ?_, ?_⟩
    · unfold configLine
      dsimp only
      rw [if_pos hvpos]
      rfl
    · intro hm
      rcases List.mem_append.mp hm with hm1 | hmv
      · rcases List.mem_append.mp hm1 with hm2 | hmw
        · rcases List.mem_append.mp hm2 with hm3 | hmt
          · rcases List.mem_append.mp hm3 with hma | hmb
            · exact colIdChar_not_nl (hidchar '\n' hma) rfl
            · simp [str] at hmb
          · exact hnl hmt
        · simp [str] at hmw
      · exact digit_not_nl (hnatall '\n' hmv) rfl
    · apply stripCR_eq_self
      rw [List.getLast?_append_of_ne_nil _ hnatne]
      intro hcr
      have := digit_not_ws (hnatall '\r' (by
        obtain ⟨hyne, hyl⟩ := List.mem_getLast?_eq_getLast
          (Option.mem_def.mpr hcr)
        exact hyl ▸ List.getLast_mem hyne))
      exact absurd this (by decide)
    · exact parse_config_line_wip cid ctitle v hid hidc ht htne hnw hvpos hv32

/-- Concatenation of serialized lines (`String::push_str` loop). -/
def concatAll (ls : List Str) : Str := ls.foldr (fun a b => a ++ b) []

theorem serialize_config_concat (cols : List BoardColumn) :
    serialize_config ⟨cols⟩ = concatAll (cols.map configLine) := by
  have hfold : ∀ (l : List BoardColumn) (acc : Str),
      l.foldl (fun acc column => acc ++ configLine column) acc =
        acc ++ concatAll (l.map configLine) := by
    intro l
    induction l with
    | nil =>
      intro acc
      simp [concatAll]
    | cons a as iha =>
      intro acc
      rw [List.foldl_cons, iha, List.map_cons]
      show acc ++ configLine a ++ concatAll (as.map configLine) = _
      rw [List.append_assoc]
      rfl
  unfold serialize_config
  rw [hfold]
  rfl

theorem parse_serialize_cols : ∀ cols : List BoardColumn,
    (∀ c ∈ cols, c.id ≠ [] ∧ c.id.all isColIdChar = true ∧
      trim c.title = c.title ∧ c.title ≠ [] ∧ '\n' ∉ c.title ∧
      containsSub (str "wip=") c.title = false ∧
      (∀ v, c.wip_limit = some v → 0 < v ∧ v < 2 ^ 32)) →
    (lines (concatAll (cols.map configLine))).filterMap parse_config_line =
      cols := by
  intro cols
  induction cols with
  | nil =>
    intro _
    rfl
  | cons c cs ih =>
    intro h
    obtain ⟨hid, hidc, ht, htne, hnl, hnw, hwip⟩ := h c (List.mem_cons_self c cs)
    obtain ⟨body, hbody, hbnl, hbcr, hbparse⟩ :=
      configLine_parses c hid hidc ht htne hnl hnw hwip
    have hjoin : concatAll ((c :: cs).map configLine) =
        body ++ '\n' :: concatAll (cs.map configLine) := by
      rw [List.map_cons]
      show configLine c ++ concatAll (cs.map configLine) = _
      rw [hbody, List.append_assoc]
      rfl
    rw [hjoin, lines_append hbnl, List.filterMap_cons, hbcr, hbparse]
    rw [ih (fun c2 hc2 => h c2 (List.mem_cons_of_mem _ hc2))]

/-- C6 counterexample: a single column with valid id `a` and title `b `
(trailing blank, no `wip=` substring) serializes to `a: b \n`, which
parses back with the title trimmed to `b` — the round trip of the claim
fails even though its premises hold. -/
theorem C6_roundtrip_counterexample :
    ((str "a").all isColIdChar = true ∧ str "a" ≠ [] ∧
      containsSub (str "wip=") (str "b ") = false) ∧
    parse_config (serialize_config ⟨[⟨str "a", str "b ", none⟩]⟩) ≠
      [⟨str "a", str "b ", none⟩] := by decide

/-- C6 (amended): serializing and re-parsing a column list is the identity
when every column has a nonempty id of column-id characters and a
nonempty, trim-stable, newline-free title without the substring `wip=`,
and every set wip limit is positive and below `2^32`. -/
theorem C6_roundtrip (cols : List BoardColumn)
    (h : ∀ c ∈ cols, c.id ≠ [] ∧ c.id.all isColIdChar = true ∧
      trim c.title = c.title ∧ c.title ≠ [] ∧ '\n' ∉ c.title ∧
      containsSub (str "wip=") c.title = false ∧
      (∀ v, c.wip_limit = some v → 0 < v ∧ v < 2 ^ 32)) :
    parse_config (serialize_config ⟨cols⟩) = cols := by
  unfold parse_config
  rw [serialize_config_concat]
  exact parse_serialize_cols cols h

theorem C6_roundtrip_witness :
    parse_config (serialize_config ⟨[⟨str "todo", str "To Do", some 3⟩,
      ⟨str "done", str "Done", none⟩]⟩) =
      [⟨str "todo", str "To Do", some 3⟩, ⟨str "done", str "Done", none⟩] :=
  C6_roundtrip _ (by
    intro c hc
    rcases List.mem_cons.mp hc with rfl | hc2
    · refine ⟨by decide, by decide, by decide, by decide, by decide,
        by decide, ?_⟩
      intro v hv
      cases hv
      exact ⟨by decide, by decide⟩
    · rcases List.mem_cons.mp hc2 with rfl | hc3
      · refine ⟨by decide, by decide, by decide, by decide, by decide,
          by decide, ?_⟩
        intro v hv
        cases hv
      · cases hc3)

end Kanban
